import Mathlib

/-
Verification of the linmo first-fit heap allocator (src/lib/malloc.c).

The allocator manages one contiguous region laid out as an address-ordered,
singly linked list of block headers terminated by a sentinel.  Each header
stores a forward pointer `next` and a size word whose low bit is the used
flag.  We embed the C code shallowly:

  * header memory is an association list from addresses (Nat) to headers;
    a store conses a new binding, shadowing the old one, which mirrors the
    fact that overwritten bytes are gone while headers that merely become
    unreachable from the list (after a merge) keep their stale contents;
  * payload bytes live in a separate byte memory `data : Nat -> Nat`;
    the operations only read and write payload bytes through memset and
    memcpy, and the structural invariants keep payload ranges disjoint
    from live headers, so the split memory is sound for the properties
    proved here;
  * the unbounded C loops become fuel-indexed recursions; running out of
    fuel (which cannot happen on heaps satisfying the structural
    invariants) is mapped to the fault outcome, like the non-returning
    `panic(ERR_HEAP_CORRUPT)` sink;
  * machine integers are Nat; `free_blocks_count` is a uint32 in C but
    every decrement the theorems touch is guarded to stay non-negative,
    so truncated Nat subtraction agrees with the C value there;
  * critical sections are modelled by an Int counter `crit` that
    CRITICAL_ENTER increments and CRITICAL_LEAVE decrements.
-/

namespace Linmo

/-- Modelled from the spec: platform word size `W` (alignment unit); the
constant lives in a header that is not part of src/. -/
def WSIZE : Nat := 4

/-- Header size `sizeof(memblock_t)`: a 32-bit `next` pointer plus a 32-bit
size word. -/
def HDR : Nat := 8

/-- Modelled from the spec: `min_payload` (`MALLOC_MIN_SIZE`), the lower
clamp on payload sizes; the defining header is not part of src/. -/
def MALLOC_MIN_SIZE : Nat := 8

/-- Modelled from the spec: `max_payload` (`MALLOC_MAX_SIZE`); the spec's
concrete scenarios fix it at 2^30. -/
def MALLOC_MAX_SIZE : Nat := 2 ^ 30

/-- Fragmentation threshold: coalesce when free blocks exceed this count. -/
def COALESCE_THRESHOLD : Nat := 8

/-- Modulus of 32-bit unsigned arithmetic. -/
def U32 : Nat := 2 ^ 32

/-- Modelled from the spec: `ALIGN4(x) = (x + 3) & ~3` in uint32
arithmetic, i.e. rounding up to a multiple of `W = 4` (the spec calls it
`round_up_W`); the defining header is not part of src/. -/
def ALIGN4 (x : Nat) : Nat :=
  ((x + 3) % U32) - ((x + 3) % U32) % 4

/-- Block header: `next` pointer (0 encodes NULL) and the raw size word
(low bit = used flag). -/
structure Hdr where
  next : Nat
  size : Nat
deriving DecidableEq, Repr

/-- Header memory: association list from word-addresses to headers.  The
first binding for an address is the current one. -/
abbrev Mem := List (Nat × Hdr)

/-- Read the header stored at address `a` (none = this address was never
written; the C code would read indeterminate bytes there). -/
def mlookup (m : Mem) (a : Nat) : Option Hdr :=
  match m with
  | [] => none
  | (b, x) :: rest => if a = b then some x else mlookup rest a

/-- Store a header at address `a`, shadowing any previous binding. -/
def mstore (m : Mem) (a : Nat) (x : Hdr) : Mem := (a, x) :: m

/-- IS_USED macro: low bit of the size word. -/
def IS_USED (s : Nat) : Bool := s % 2 == 1

/-- GET_SIZE macro: size word with the low bit cleared. -/
def GET_SIZE (s : Nat) : Nat := s - s % 2

/-- MARK_FREE macro: clear the low bit (`size &= ~1`). -/
def MARK_FREE (s : Nat) : Nat := s - s % 2

/-- MARK_USED macro: set the low bit (`size |= 1`). -/
def MARK_USED (s : Nat) : Nat := if s % 2 = 1 then s else s + 1

/-- Low bit of the size word, as the C expression `(b)->size & 1L`. -/
def usedBit (s : Nat) : Nat := s % 2

/-- Bitwise or of a size word with a used bit (0 or 1), as in
`block->size = size | IS_USED(block)`. -/
def orUsedBit (s t : Nat) : Nat := if t = 0 then s else MARK_USED s

/-- Payload byte memory. -/
abbrev Data := Nat → Nat

/-- memset on the payload byte memory. -/
def memsetData (d : Data) (p v n : Nat) : Data :=
  fun a => if p ≤ a ∧ a < p + n then v else d a

/-- memcpy on the payload byte memory (reads the pre-state, which matches
the C call sites: source and destination never overlap there). -/
def memcpyData (d : Data) (dst src n : Nat) : Data :=
  fun a => if dst ≤ a ∧ a < dst + n then d (src + (a - dst)) else d a

/-- The allocator's process-wide state. -/
structure Heap where
  mem : Mem
  firstFree : Nat
  heapStart : Nat
  heapEnd : Nat
  freeCount : Nat
  crit : Int
  data : Data

/-- Modelled from the spec: CRITICAL_ENTER disables preemption; we track
the nesting depth. -/
def critEnter (h : Heap) : Heap := { h with crit := h.crit + 1 }

/-- Modelled from the spec: CRITICAL_LEAVE restores preemption. -/
def critLeave (h : Heap) : Heap := { h with crit := h.crit - 1 }

/-- Outcome of an operation: a returned value with the final state, or the
non-returning `panic(ERR_HEAP_CORRUPT)` sink (also used for loops the C
code would not exit, which cannot arise on well-formed heaps). -/
inductive Out (α : Type) where
  | ok (v : α) (h : Heap)
  | fault (h : Heap)

/-- Value returned by an outcome (none if the operation faulted). -/
def outVal? {α : Type} : Out α → Option α
  | .ok v _ => some v
  | .fault _ => none

/-- Final heap of an outcome. -/
def outHeap {α : Type} : Out α → Heap
  | .ok _ h => h
  | .fault h => h

/-- True when the outcome is the fault (panic) sink. -/
def isFault {α : Type} : Out α → Bool
  | .ok _ _ => false
  | .fault _ => true

/-- validate_block on a header value already read from memory:
IS_VALID_BLOCK bounds and alignment, a non-zero bounded payload size, the
block staying inside the heap, and the stored `next` (when non-null)
agreeing with physical adjacency. -/
def validateH (h : Heap) (b : Nat) (x : Hdr) : Bool :=
  decide (h.heapStart ≤ b) && decide (b < h.heapEnd) && decide (b % 4 = 0) &&
  decide (0 < GET_SIZE x.size) && decide (GET_SIZE x.size ≤ MALLOC_MAX_SIZE) &&
  decide (b + HDR + GET_SIZE x.size ≤ h.heapEnd) &&
  (x.next == 0 || decide (b + HDR + GET_SIZE x.size = x.next))

/-- validate_block: read the header at `b` and check it; an address that
was never written is rejected (the C code would check indeterminate
bytes). -/
def validate_block (h : Heap) (b : Nat) : Bool :=
  match mlookup h.mem b with
  | none => false
  | some x => validateH h b x

/-- split_block: if the selected block is large enough, carve a free
remainder header right after the first `size` payload bytes; the faulting
branch mirrors `panic(ERR_HEAP_CORRUPT)` on `size > GET_SIZE(block)`. -/
def split_block (h : Heap) (b : Nat) (size : Nat) : Out Unit :=
  match mlookup h.mem b with
  | none => .fault h
  | some x =>
    if GET_SIZE x.size < size then .fault h
    else
      let remaining := GET_SIZE x.size - size
      if remaining < HDR + MALLOC_MIN_SIZE then .ok () h
      else
        let na := b + HDR + size
        let m1 := mstore h.mem na ⟨x.next, MARK_FREE (remaining - HDR)⟩
        let m2 := mstore m1 b ⟨na, orUsedBit size (usedBit x.size)⟩
        .ok () { h with mem := m2, freeCount := h.freeCount + 1 }

/-- Backward-merge predecessor walk of free():
`while (current && current != p) { prev = current; current = current->next; }`.
Returns the final `prev` (outer none = the walk followed a dangling
pointer or ran out of fuel, which the C code cannot recover from). -/
def free_find_prev : Nat → Mem → Nat → Nat → Option Nat → Option (Option Nat)
  | 0, _, _, _, _ => none
  | fuel + 1, m, target, current, prev =>
    if current = 0 ∨ current = target then some prev
    else
      match mlookup m current with
      | none => none
      | some x => free_find_prev fuel m target x.next (some current)

/-- Backward-merge half of free(): search the list for the predecessor of
`p` (whose header is now `x2`) and absorb `p` into it when it is free. -/
def free_backward (h2 : Heap) (p : Nat) (x2 : Hdr) : Out Unit :=
  match free_find_prev (h2.heapEnd + 1) h2.mem p h2.firstFree none with
  | none => .fault (critLeave h2)
  | some none => .ok () (critLeave h2)
  | some (some r) =>
    match mlookup h2.mem r with
    | none => .ok () (critLeave h2)
    | some z =>
      if IS_USED z.size then .ok () (critLeave h2)
      else if validate_block h2 r then
        let z' : Hdr := ⟨x2.next, GET_SIZE z.size + HDR + GET_SIZE x2.size⟩
        .ok () (critLeave { h2 with mem := mstore h2.mem r z', freeCount := h2.freeCount - 1 })
      else .fault (critLeave h2)

/-- Body of free() after the pointer was validated: mark the block free,
merge forward with an adjacent free successor, then search the list for
the predecessor and merge backward if it is free. -/
def free_core (h : Heap) (p : Nat) (x : Hdr) : Out Unit :=
  let x1 : Hdr := ⟨x.next, MARK_FREE x.size⟩
  let h1 : Heap := { h with mem := mstore h.mem p x1, freeCount := h.freeCount + 1 }
  let fm : Heap × Hdr :=
    if x1.next = 0 then (h1, x1)
    else
      match mlookup h1.mem x1.next with
      | none => (h1, x1)
      | some y =>
        if IS_USED y.size then (h1, x1)
        else
          let x2 : Hdr := ⟨y.next, GET_SIZE x1.size + HDR + GET_SIZE y.size⟩
          ({ h1 with mem := mstore h1.mem p x2, freeCount := h1.freeCount - 1 }, x2)
  free_backward fm.1 p fm.2

/-- free(): null is a no-op; otherwise validate the header right before
the payload and require the used flag, then mark free and coalesce. -/
def free (h0 : Heap) (ptr : Nat) : Out Unit :=
  if ptr = 0 then .ok () h0
  else
    let h := critEnter h0
    let p := ptr - HDR
    match mlookup h.mem p with
    | none => .fault (critLeave h)
    | some x =>
      if validate_block h p && IS_USED x.size then free_core h p x
      else .fault (critLeave h)

/-- selective_coalesce: walk the list, merging every physically adjacent
pair of free blocks; after a merge the cursor stays on the merged block. -/
def coalesce_loop : Nat → Heap → Nat → Out Unit
  | 0, h, _ => .fault h
  | fuel + 1, h, p =>
    if p = 0 then .ok () h
    else
      match mlookup h.mem p with
      | none => .fault h
      | some x =>
        if x.next = 0 then .ok () h
        else if validateH h p x = false then .fault h
        else
          match mlookup h.mem x.next with
          | none => .fault h
          | some y =>
            if IS_USED x.size = false ∧ IS_USED y.size = false then
              coalesce_loop fuel
                { h with
                  mem := mstore h.mem p ⟨y.next, GET_SIZE x.size + HDR + GET_SIZE y.size⟩,
                  freeCount := h.freeCount - 1 } p
            else coalesce_loop fuel h x.next

/-- First-fit search loop of malloc(): validate each header, select the
first free block whose payload fits, split it, mark it used, decrement
the free-block counter (fault if it would underflow) and return the
payload pointer. -/
def malloc_loop : Nat → Heap → Nat → Nat → Out Nat
  | 0, h, _, _ => .fault h
  | fuel + 1, h, size, p =>
    if p = 0 then .ok 0 (critLeave h)
    else
      match mlookup h.mem p with
      | none => .fault (critLeave h)
      | some x =>
        if validateH h p x then
          if IS_USED x.size = false ∧ size ≤ GET_SIZE x.size then
            match split_block h p size with
            | .fault h' => .fault h'
            | .ok _ h1 =>
              match mlookup h1.mem p with
              | none => .fault h1
              | some x1 =>
                let h2 := { h1 with mem := mstore h1.mem p ⟨x1.next, MARK_USED x1.size⟩ }
                if h2.freeCount = 0 then .fault h2
                else .ok (p + HDR) (critLeave { h2 with freeCount := h2.freeCount - 1 })
          else malloc_loop fuel h size x.next
        else .fault (critLeave h)

/-- malloc(): reject size 0 and oversize requests, align the size up and
clamp it to the minimum, optionally run the coalescing sweep, then do the
first-fit walk, all inside a critical section. -/
def malloc (h0 : Heap) (size : Nat) : Out Nat :=
  if size = 0 ∨ MALLOC_MAX_SIZE < size then .ok 0 h0
  else
    let sz0 := ALIGN4 size
    let sz := if sz0 < MALLOC_MIN_SIZE then MALLOC_MIN_SIZE else sz0
    let h := critEnter h0
    match (if COALESCE_THRESHOLD < h.freeCount then
             coalesce_loop (h.heapEnd + 1) h h.firstFree
           else .ok () h) with
    | .fault h' => .fault h'
    | .ok _ h1 => malloc_loop (h1.heapEnd + 1) h1 sz h1.firstFree

/-- mo_heap_init: lay a free header over the whole region linked to a
used, zero-sized sentinel at the top; silently rejects a null region or
one too small for two headers plus the minimum payload. -/
def mo_heap_init (h : Heap) (zone len0 : Nat) : Heap :=
  if zone = 0 ∨ len0 < 2 * HDR + MALLOC_MIN_SIZE then h
  else
    let len := ALIGN4 len0
    let endAddr := zone + len - HDR
    let m1 := mstore h.mem zone ⟨endAddr, MARK_FREE (len - 2 * HDR)⟩
    let m2 := mstore m1 endAddr ⟨0, MARK_USED 0⟩
    { h with mem := m2, firstFree := zone, heapStart := zone,
             heapEnd := endAddr + HDR, freeCount := 1 }

/-- calloc: overflow-guarded multiplication (32-bit), allocate, zero the
payload on success. -/
def calloc (h : Heap) (nmemb size : Nat) : Out Nat :=
  if nmemb ≠ 0 ∧ MALLOC_MAX_SIZE / nmemb < size then .ok 0 h
  else
    let total := ALIGN4 ((nmemb * size) % U32)
    match malloc h total with
    | .fault h' => .fault h'
    | .ok p h' =>
      if p = 0 then .ok 0 h'
      else .ok p { h' with data := memsetData h'.data p 0 total }

/-- Relocation path of realloc: allocate a fresh block, and only on
success copy `min(old, size)` payload bytes and free the original. -/
def realloc_relocate (h0 : Heap) (ptr size old : Nat) : Out Nat :=
  match malloc h0 size with
  | .fault h' => .fault h'
  | .ok nb h1 =>
    if nb = 0 then .ok 0 h1
    else
      let h2 := { h1 with data := memcpyData h1.data nb ptr (min old size) }
      match free h2 ptr with
      | .fault h' => .fault h'
      | .ok _ h3 => .ok nb h3

/-- Grow-into-next fast path of realloc: absorb the adjacent free
successor (the raw size store drops the used bit, as in the C source),
split to the requested size, optionally sweep, and leave the critical
section that was never entered. -/
def realloc_grow (h0 : Heap) (b : Nat) (x y : Hdr) (size : Nat) : Out Nat :=
  let x1 : Hdr := ⟨y.next, GET_SIZE x.size + HDR + GET_SIZE y.size⟩
  let h1 := { h0 with mem := mstore h0.mem b x1, freeCount := h0.freeCount - 1 }
  match split_block h1 b size with
  | .fault h' => .fault h'
  | .ok _ h2 =>
    match (if COALESCE_THRESHOLD < h2.freeCount then
             coalesce_loop (h2.heapEnd + 1) h2 h2.firstFree
           else .ok () h2) with
    | .fault h' => .fault h'
    | .ok _ h3 => .ok (b + HDR) (critLeave h3)

/-- realloc: oversize returns null; null pointer behaves as malloc; size
0 frees; otherwise validate the live header and take the in-place
shrink, split-shrink, grow-into-next or relocate path. -/
def realloc (h0 : Heap) (ptr size0 : Nat) : Out Nat :=
  if MALLOC_MAX_SIZE < size0 then .ok 0 h0
  else if ptr = 0 then malloc h0 size0
  else if size0 = 0 then
    match free h0 ptr with
    | .fault h' => .fault h'
    | .ok _ h' => .ok 0 h'
  else
    let size := ALIGN4 size0
    let b := ptr - HDR
    match mlookup h0.mem b with
    | none => .fault h0
    | some x =>
      if validate_block h0 b && IS_USED x.size then
        let old := GET_SIZE x.size
        if size ≤ old ∧ old - size < HDR + MALLOC_MIN_SIZE then .ok ptr h0
        else if size ≤ old then
          match split_block h0 b size with
          | .fault h' => .fault h'
          | .ok _ h1 =>
            match (if COALESCE_THRESHOLD < h1.freeCount then
                     coalesce_loop (h1.heapEnd + 1) h1 h1.firstFree
                   else .ok () h1) with
            | .fault h' => .fault h'
            | .ok _ h2 => .ok ptr (critLeave h2)
        else
          match (if x.next ≠ 0 then mlookup h0.mem x.next else none) with
          | some y =>
            if IS_USED y.size = false ∧ size ≤ old + HDR + GET_SIZE y.size then
              realloc_grow h0 b x y size
            else realloc_relocate h0 ptr size old
          | none => realloc_relocate h0 ptr size old
      else .fault h0

/-- The block list actually reachable from an address by following `next`
pointers (fuel-bounded; `heapEnd + 1` fuel suffices on well-formed
heaps). -/
def chainF (m : Mem) : Nat → Nat → List (Nat × Hdr)
  | 0, _ => []
  | fuel + 1, a =>
    if a = 0 then []
    else
      match mlookup m a with
      | none => []
      | some x => (a, x) :: chainF m fuel x.next

/-- The heap's block list, walked from the list head. -/
def theChain (h : Heap) : List (Nat × Hdr) := chainF h.mem (h.heapEnd + 1) h.firstFree

/-- Measured number of free headers in a block list. -/
def countFree (l : List (Nat × Hdr)) : Nat := l.countP (fun u => !IS_USED u.2.size)

/-- One of two neighboring headers is used (the negation of an adjacent
free pair). -/
def adjOK (u v : Nat × Hdr) : Prop :=
  IS_USED u.2.size = true ∨ IS_USED v.2.size = true

/-- Invariant 5 of the data model: no two consecutive headers of the block
list are both free. -/
def NoAdj (l : List (Nat × Hdr)) : Prop := List.Chain' adjOK l

/-- Well-formed block list from address `a`: every link agrees with
physical adjacency, nodes are aligned, sized and located inside the
region, and the list ends at the sentinel (zero payload, used, null
next) sitting at `heapEnd - sizeof(H)`.  This is the conjunction of
structural invariants 2, 3, 4 and 7 of the data model. -/
inductive ChainOK (m : Mem) (hs he : Nat) : Nat → List (Nat × Hdr) → Prop
  | sent :
      mlookup m (he - HDR) = some ⟨0, 1⟩ →
      hs + HDR ≤ he →
      ChainOK m hs he (he - HDR) [(he - HDR, ⟨0, 1⟩)]
  | node {a : Nat} {x : Hdr} {l : List (Nat × Hdr)} :
      mlookup m a = some x →
      a % 4 = 0 →
      hs ≤ a →
      GET_SIZE x.size % 4 = 0 →
      0 < GET_SIZE x.size →
      GET_SIZE x.size ≤ MALLOC_MAX_SIZE →
      x.next = a + HDR + GET_SIZE x.size →
      ChainOK m hs he x.next l →
      ChainOK m hs he a ((a, x) :: l)

/-- Executable version of `ChainOK`, used to discharge well-formedness of
concrete heaps by evaluation. -/
def chainOKB (m : Mem) (hs he : Nat) : Nat → List (Nat × Hdr) → Bool
  | _, [] => false
  | a, [(b, x)] =>
    decide (a = b) && decide (b = he - HDR) && decide (mlookup m b = some ⟨0, 1⟩) &&
    decide (x = ⟨0, 1⟩) && decide (hs + HDR ≤ he)
  | a, (b, x) :: u :: l =>
    decide (a = b) && decide (mlookup m b = some x) && decide (b % 4 = 0) &&
    decide (hs ≤ b) && decide (GET_SIZE x.size % 4 = 0) && decide (0 < GET_SIZE x.size) &&
    decide (GET_SIZE x.size ≤ MALLOC_MAX_SIZE) &&
    decide (x.next = b + HDR + GET_SIZE x.size) &&
    chainOKB m hs he x.next (u :: l)

/-- Structural well-formedness of a heap whose block list is `l`:
the list from `firstFree` is a well-formed chain, the region starts at a
non-null address and the region is small enough that merged payloads stay
representable (invariant 4 forces this: a fully coalesced heap is one
free block of `region_length - 2 * sizeof(H) <= max_payload` bytes). -/
structure WFD (h : Heap) (l : List (Nat × Hdr)) : Prop where
  chain : ChainOK h.mem h.heapStart h.heapEnd h.firstFree l
  hsPos : 0 < h.heapStart
  bound : h.heapEnd ≤ h.heapStart + MALLOC_MAX_SIZE + 2 * HDR

/-- Conditions under which realloc takes the split-shrink or
grow-into-next in-place fast path. -/
def reallocFastPath (h : Heap) (ptr size0 : Nat) : Prop :=
  size0 ≤ MALLOC_MAX_SIZE ∧ ptr ≠ 0 ∧ size0 ≠ 0 ∧
  ∃ x, mlookup h.mem (ptr - HDR) = some x ∧
    ((ALIGN4 size0 ≤ GET_SIZE x.size ∧
      HDR + MALLOC_MIN_SIZE ≤ GET_SIZE x.size - ALIGN4 size0) ∨
     (GET_SIZE x.size < ALIGN4 size0 ∧ x.next ≠ 0 ∧
      ∃ y, mlookup h.mem x.next = some y ∧ IS_USED y.size = false ∧
        ALIGN4 size0 ≤ GET_SIZE x.size + HDR + GET_SIZE y.size))

/-- An uninitialized heap (all globals zero). -/
def blankHeap : Heap := ⟨[], 0, 0, 0, 0, 0, fun _ => 0⟩

/-- A 96-byte region at address 8, freshly initialized: one free block of
payload 80 at 8 and the sentinel at 96. -/
def hInit : Heap := mo_heap_init blankHeap 8 96

/-- Heap after `p1 = malloc(24)` on `hInit` (returns 16). -/
def hA : Heap := outHeap (malloc hInit 24)

/-- Heap after `p2 = malloc(16)` on `hA` (returns 48). -/
def hB : Heap := outHeap (malloc hA 16)

/-- Heap after `p3 = malloc(24)` on `hB` (returns 72). -/
def hC : Heap := outHeap (malloc hB 24)

/-- Heap after `free(p2)` on `hC`: block at 40 is free, its neighbors at
8 and 64 are used. -/
def hD : Heap := outHeap (free hC 48)

/-- A heap whose single validated block ends the list with a null `next`
and no sentinel: every structural check of the code passes for it, yet a
first-fit walk runs off the end and returns null, which realizes the
allocation-failure branch of realloc's relocate path. -/
def hNoSent : Heap := ⟨[(8, ⟨0, 25⟩)], 8, 8, 100, 0, 0, fun _ => 0⟩

/-- Heap after `realloc(p1, 4)` on `hD`: the split-shrink fast path with
`free_blocks` at or below the coalesce threshold, and no sweep. -/
def hE : Heap := outHeap (realloc hD 16 4)

/-- Heap after `realloc(p1, 40)` on `hA`: the grow-into-next fast path. -/
def hG : Heap := outHeap (realloc hA 16 40)

/-- A well-formed heap with two used 8-byte blocks at 8 and 24, a 32-byte
free block at 40 and the sentinel at 80: growing the first block must
relocate (its physical successor is used), and the fresh allocation
succeeds in the free block. -/
def hRel : Heap :=
  ⟨[(8, ⟨24, 9⟩), (24, ⟨40, 9⟩), (40, ⟨80, 32⟩), (80, ⟨0, 1⟩)], 8, 8, 88, 1, 0, fun a => a⟩

instance (u v : Nat × Hdr) : Decidable (adjOK u v) :=
  inferInstanceAs (Decidable (IS_USED u.2.size = true ∨ IS_USED v.2.size = true))

instance instDecNoAdj : ∀ l : List (Nat × Hdr), Decidable (NoAdj l)
  | [] => isTrue List.chain'_nil
  | [u] => isTrue (List.chain'_singleton u)
  | u :: v :: l =>
    match instDecNoAdj (v :: l) with
    | isTrue ht =>
      if hu : IS_USED u.2.size = true ∨ IS_USED v.2.size = true then
        isTrue (List.chain'_cons.mpr ⟨hu, ht⟩)
      else isFalse (fun hc => hu (List.chain'_cons.mp hc).1)
    | isFalse hf => isFalse (fun hc => hf (List.chain'_cons.mp hc).2)

/-! ### Size-word macro lemmas -/

theorem IS_USED_eq_true {s : Nat} : IS_USED s = true ↔ s % 2 = 1 := by
  simp [IS_USED]

theorem IS_USED_eq_false {s : Nat} : IS_USED s = false ↔ s % 2 = 0 := by
  simp only [IS_USED, beq_eq_false_iff_ne, ne_eq]
  omega

theorem GET_SIZE_mod_two {s : Nat} : GET_SIZE s % 2 = 0 := by
  unfold GET_SIZE
  omega

theorem GET_SIZE_of_even {s : Nat} (h : s % 2 = 0) : GET_SIZE s = s := by
  unfold GET_SIZE
  omega

theorem GET_SIZE_MARK_FREE {s : Nat} : GET_SIZE (MARK_FREE s) = GET_SIZE s := by
  unfold GET_SIZE MARK_FREE
  omega

theorem IS_USED_MARK_FREE {s : Nat} : IS_USED (MARK_FREE s) = false := by
  rw [IS_USED_eq_false]
  unfold MARK_FREE
  omega

theorem MARK_FREE_of_even {s : Nat} (h : s % 2 = 0) : MARK_FREE s = s := by
  unfold MARK_FREE
  omega

theorem IS_USED_MARK_USED {s : Nat} : IS_USED (MARK_USED s) = true := by
  rw [IS_USED_eq_true]
  unfold MARK_USED
  split <;> omega

theorem GET_SIZE_MARK_USED {s : Nat} : GET_SIZE (MARK_USED s) = GET_SIZE s := by
  unfold GET_SIZE MARK_USED
  split <;> omega

theorem GET_SIZE_orUsedBit {s w : Nat} (hs : s % 2 = 0) :
    GET_SIZE (orUsedBit s (usedBit w)) = s := by
  unfold orUsedBit usedBit MARK_USED GET_SIZE
  split
  · omega
  · split <;> omega

theorem IS_USED_orUsedBit {s w : Nat} (hs : s % 2 = 0) :
    IS_USED (orUsedBit s (usedBit w)) = IS_USED w := by
  unfold orUsedBit usedBit MARK_USED
  by_cases hw : w % 2 = 0
  · rw [if_pos hw, IS_USED_eq_false.mpr hs, IS_USED_eq_false.mpr hw]
  · rw [if_neg hw, if_neg (by omega : ¬ s % 2 = 1),
      IS_USED_eq_true.mpr (by omega : (s + 1) % 2 = 1),
      IS_USED_eq_true.mpr (by omega : w % 2 = 1)]

theorem U32_eq : U32 = 4294967296 := by norm_num [U32]

theorem MAX_eq : MALLOC_MAX_SIZE = 1073741824 := by norm_num [MALLOC_MAX_SIZE]

theorem ALIGN4_mod_four {x : Nat} : ALIGN4 x % 4 = 0 := by
  unfold ALIGN4
  omega

theorem ALIGN4_ge {x : Nat} (h : x + 3 < U32) : x ≤ ALIGN4 x := by
  have hu := U32_eq
  unfold ALIGN4
  rw [hu] at h ⊢
  omega

theorem ALIGN4_lt {x : Nat} (h : x + 3 < U32) : ALIGN4 x < x + 4 := by
  have hu := U32_eq
  unfold ALIGN4
  rw [hu] at h ⊢
  omega

theorem ALIGN4_le_MAX {x : Nat} (h : x ≤ MALLOC_MAX_SIZE) : ALIGN4 x ≤ MALLOC_MAX_SIZE := by
  have hu := U32_eq
  have hm := MAX_eq
  unfold ALIGN4
  rw [hu]
  rw [hm] at h ⊢
  omega

/-! ### Header memory lemmas -/

theorem mlookup_mstore (m : Mem) (a : Nat) (x : Hdr) (c : Nat) :
    mlookup (mstore m a x) c = if c = a then some x else mlookup m c := rfl

/-! ### Structural lemmas about well-formed chains -/

theorem ChainOK.head_eq {m : Mem} {hs he a : Nat} {l : List (Nat × Hdr)}
    (h : ChainOK m hs he a l) : ∃ x l', l = (a, x) :: l' ∧ mlookup m a = some x := by
  cases h with
  | sent hlk hle => exact ⟨_, _, rfl, hlk⟩
  | node hlk _ _ _ _ _ _ _ => exact ⟨_, _, rfl, hlk⟩

theorem ChainOK.he_ge {m : Mem} {hs he a : Nat} {l : List (Nat × Hdr)}
    (h : ChainOK m hs he a l) : hs + HDR ≤ he := by
  induction h with
  | sent _ hle => exact hle
  | node _ _ _ _ _ _ _ _ ih => exact ih

theorem ChainOK.addr_lb {m : Mem} {hs he a : Nat} {l : List (Nat × Hdr)}
    (h : ChainOK m hs he a l) : ∀ u ∈ l, a ≤ u.1 := by
  induction h with
  | sent _ _ =>
    intro u hu
    simp only [List.mem_singleton] at hu
    subst hu
    exact le_refl _
  | node _ _ _ _ _ _ hnext _ ih =>
    intro u hu
    rcases List.mem_cons.mp hu with rfl | hu
    · exact le_refl _
    · have := ih u hu
      omega

theorem ChainOK.addr_ge_hs {m : Mem} {hs he a : Nat} {l : List (Nat × Hdr)}
    (h : ChainOK m hs he a l) : hs ≤ a := by
  induction h with
  | sent _ hle => omega
  | node _ _ hge _ _ _ _ _ _ => exact hge

theorem ChainOK.addr_ub {m : Mem} {hs he a : Nat} {l : List (Nat × Hdr)}
    (h : ChainOK m hs he a l) : ∀ u ∈ l, u.1 + HDR ≤ he := by
  induction h with
  | sent _ hle =>
    intro u hu
    simp only [List.mem_singleton] at hu
    subst hu
    show he - HDR + HDR ≤ he
    unfold HDR at *
    omega
  | node _ _ _ _ _ _ hnext hch ih =>
    intro u hu
    rcases List.mem_cons.mp hu with rfl | hu
    · obtain ⟨x', l'', rfl, _⟩ := hch.head_eq
      have h1 := ih _ (List.mem_cons_self _ _)
      unfold HDR at *
      omega
    · exact ih u hu

theorem ChainOK.sorted {m : Mem} {hs he a : Nat} {l : List (Nat × Hdr)}
    (h : ChainOK m hs he a l) : l.Pairwise (fun u v => u.1 < v.1) := by
  induction h with
  | sent _ _ => exact List.pairwise_singleton _ _
  | node _ _ _ _ _ _ hnext hch ih =>
    refine List.Pairwise.cons ?_ ih
    intro v hv
    have := hch.addr_lb v hv
    unfold HDR at *
    omega

theorem ChainOK.lookup_of_mem {m : Mem} {hs he a : Nat} {l : List (Nat × Hdr)}
    (h : ChainOK m hs he a l) {c : Nat} {y : Hdr} (hm : (c, y) ∈ l) :
    mlookup m c = some y := by
  induction h with
  | sent hlk _ =>
    simp only [List.mem_singleton, Prod.mk.injEq] at hm
    obtain ⟨rfl, rfl⟩ := hm
    exact hlk
  | node hlk _ _ _ _ _ _ _ ih =>
    rcases List.mem_cons.mp hm with heq | hm'
    · obtain ⟨rfl, rfl⟩ := Prod.mk.injEq .. |>.mp heq
      exact hlk
    · exact ih hm'

theorem ChainOK.cons_inv {m : Mem} {hs he a : Nat} {w : Nat × Hdr} {t : List (Nat × Hdr)}
    (h : ChainOK m hs he a (w :: t)) (ht : t ≠ []) :
    a = w.1 ∧ mlookup m w.1 = some w.2 ∧ w.1 % 4 = 0 ∧ hs ≤ w.1 ∧
    GET_SIZE w.2.size % 4 = 0 ∧ 0 < GET_SIZE w.2.size ∧
    GET_SIZE w.2.size ≤ MALLOC_MAX_SIZE ∧
    w.2.next = w.1 + HDR + GET_SIZE w.2.size ∧ ChainOK m hs he w.2.next t := by
  cases h with
  | sent hlk hle => exact absurd rfl ht
  | node hlk h4 hge hsz4 hszpos hszmax hnext hch =>
    exact ⟨rfl, hlk, h4, hge, hsz4, hszpos, hszmax, hnext, hch⟩

theorem ChainOK.next_zero {m : Mem} {hs he a : Nat} {x : Hdr} {Lt : List (Nat × Hdr)}
    (h : ChainOK m hs he a ((a, x) :: Lt)) (hx0 : x.next = 0) :
    x = ⟨0, 1⟩ ∧ Lt = [] ∧ a = he - HDR := by
  cases h with
  | sent hlk hle => exact ⟨rfl, rfl, rfl⟩
  | node _ _ _ _ hszpos _ hnext _ =>
    exfalso
    have h5 : 0 < GET_SIZE x.size := hszpos
    have h6 : x.next = a + HDR + GET_SIZE x.size := hnext
    have h7 : HDR = 8 := rfl
    omega

theorem ChainOK.last_sent {m : Mem} {hs he a : Nat} {l : List (Nat × Hdr)}
    (h : ChainOK m hs he a l) :
    ∃ l', l = l' ++ [(he - HDR, (⟨0, 1⟩ : Hdr))] := by
  induction h with
  | sent _ _ => exact ⟨[], rfl⟩
  | node _ _ _ _ _ _ _ _ ih =>
    obtain ⟨l', rfl⟩ := ih
    exact ⟨_ :: l', rfl⟩

theorem ChainOK.singleton_inv {m : Mem} {hs he a : Nat} {x : Hdr}
    (h : ChainOK m hs he a [(a, x)]) : x = ⟨0, 1⟩ ∧ a = he - HDR := by
  obtain ⟨l', hl'⟩ := h.last_sent
  have hnil : l' = [] := by
    cases l' with
    | nil => rfl
    | cons w t => simp at hl'
  subst hnil
  simp only [List.nil_append, List.cons.injEq] at hl'
  obtain ⟨heq1, -⟩ := hl'
  obtain ⟨h1, h2⟩ := Prod.mk.injEq .. |>.mp heq1
  exact ⟨h2, h1⟩

theorem ChainOK.suffix {m : Mem} {hs he : Nat} {u : Nat × Hdr} :
    ∀ {l1 l2 : List (Nat × Hdr)} {a : Nat},
      ChainOK m hs he a (l1 ++ u :: l2) → ChainOK m hs he u.1 (u :: l2)
  | [], l2, a, h => by
    obtain ⟨x, l', heq, _⟩ := h.head_eq
    simp only [List.nil_append] at heq
    cases heq
    exact h
  | w :: l1', l2, a, h => by
    rw [List.cons_append] at h
    obtain ⟨_, _, _, _, _, _, _, _, hch⟩ := h.cons_inv (by simp)
    exact ChainOK.suffix hch

theorem ChainOK.length_le {m : Mem} {hs he a : Nat} {l : List (Nat × Hdr)}
    (h : ChainOK m hs he a l) : a + l.length ≤ he := by
  induction h with
  | sent _ hle =>
    simp only [List.length_singleton]
    unfold HDR at *
    omega
  | node _ _ _ _ _ _ hnext _ ih =>
    simp only [List.length_cons]
    unfold HDR at *
    omega

theorem ChainOK.store_outside {m : Mem} {hs he : Nat} {w : Nat} {v : Hdr} :
    ∀ {a : Nat} {l : List (Nat × Hdr)},
      ChainOK m hs he a l → (∀ u ∈ l, u.1 ≠ w) → ChainOK (mstore m w v) hs he a l := by
  intro a l h
  induction h with
  | sent hlk hle =>
    intro hw
    refine ChainOK.sent ?_ hle
    rw [mlookup_mstore, if_neg (hw _ (List.mem_singleton_self _))]
    exact hlk
  | node hlk h4 hge hsz4 hszpos hszmax hnext hch ih =>
    intro hw
    refine ChainOK.node ?_ h4 hge hsz4 hszpos hszmax hnext
      (ih fun u hu => hw u (List.mem_cons_of_mem _ hu))
    rw [mlookup_mstore, if_neg (hw _ (List.mem_cons_self _ _))]
    exact hlk

theorem ChainOK.surgery {m m' : Mem} {hs he : Nat} {b : Nat} {x : Hdr}
    {l2 L' : List (Nat × Hdr)} :
    ∀ {l1 : List (Nat × Hdr)} {a : Nat},
      ChainOK m hs he a (l1 ++ (b, x) :: l2) →
      (∀ u ∈ l1, mlookup m' u.1 = some u.2) →
      ChainOK m' hs he b L' →
      ChainOK m' hs he a (l1 ++ L')
  | [], a, h, _, h' => by
    obtain ⟨x', l', heq, _⟩ := h.head_eq
    simp only [List.nil_append] at heq
    cases heq
    exact h'
  | (c, y) :: l1', a, h, hl, h' => by
    rw [List.cons_append] at h
    obtain ⟨ha, _, h4, hge, hsz4, hszpos, hszmax, hnext, hch⟩ := h.cons_inv (by simp)
    rw [List.cons_append]
    subst ha
    exact ChainOK.node (hl _ (List.mem_cons_self _ _)) h4 hge hsz4 hszpos hszmax hnext
      (ChainOK.surgery hch (fun u hu => hl u (List.mem_cons_of_mem _ hu)) h')

theorem ChainOK.mem_split {m : Mem} {hs he a : Nat} {l : List (Nat × Hdr)}
    (h : ChainOK m hs he a l) {c : Nat} {y : Hdr} (hm : (c, y) ∈ l) :
    ∃ l1 l2, l = l1 ++ (c, y) :: l2 ∧ ChainOK m hs he c ((c, y) :: l2) ∧
      (l2 = [] → c = he - HDR ∧ y = ⟨0, 1⟩) := by
  obtain ⟨l1, l2, rfl⟩ := List.append_of_mem hm
  refine ⟨l1, l2, rfl, h.suffix, ?_⟩
  rintro rfl
  obtain ⟨l', hl'⟩ := (h.suffix : ChainOK m hs he c ((c, y) :: [])).last_sent
  have hnil : l' = [] := by
    cases l' with
    | nil => rfl
    | cons w t => simp at hl'
  subst hnil
  simp only [List.nil_append, List.cons.injEq] at hl'
  obtain ⟨heq, -⟩ := hl'
  obtain ⟨h1, h2⟩ := Prod.mk.injEq .. |>.mp heq
  exact ⟨h1, h2⟩

theorem ChainOK.pos {m : Mem} {hs he a : Nat} {l : List (Nat × Hdr)}
    (h : ChainOK m hs he a l) (hhs : 0 < hs) : 0 < a := by
  have := h.addr_ge_hs
  omega

theorem validateH_of_chain {h : Heap} {a : Nat} {x : Hdr} {rest : List (Nat × Hdr)}
    (hch : ChainOK h.mem h.heapStart h.heapEnd a ((a, x) :: rest))
    (hrest : rest ≠ []) : validateH h a x = true := by
  cases hch with
  | sent hlk hle => exact absurd rfl hrest
  | node hlk h4 hge hsz4 hszpos hszmax hnext hch' =>
    obtain ⟨x', l'', heq, _⟩ := hch'.head_eq
    have hlen := hch'.length_le
    have hrl : 0 < rest.length := by
      subst heq
      simp
    simp only [validateH, Bool.and_eq_true, Bool.or_eq_true, decide_eq_true_eq, beq_iff_eq]
    refine ⟨⟨⟨⟨⟨⟨hge, by omega⟩, h4⟩, hszpos⟩, hszmax⟩, by omega⟩, Or.inr (by omega)⟩

theorem validate_block_of_chain {h : Heap} {a : Nat} {x : Hdr} {rest : List (Nat × Hdr)}
    (hch : ChainOK h.mem h.heapStart h.heapEnd a ((a, x) :: rest))
    (hrest : rest ≠ []) : validate_block h a = true := by
  obtain ⟨x', l', heq, hlk⟩ := hch.head_eq
  cases heq
  unfold validate_block
  rw [hlk]
  exact validateH_of_chain hch hrest

theorem chainOKB_sound {m : Mem} {hs he : Nat} :
    ∀ {a : Nat} {l : List (Nat × Hdr)}, chainOKB m hs he a l = true → ChainOK m hs he a l
  | a, [], h => by simp [chainOKB] at h
  | a, [(b, x)], h => by
    simp only [chainOKB, Bool.and_eq_true, decide_eq_true_eq] at h
    obtain ⟨⟨⟨⟨rfl, rfl⟩, hlk⟩, rfl⟩, hle⟩ := h
    exact ChainOK.sent hlk hle
  | a, (b, x) :: u :: l, h => by
    simp only [chainOKB, Bool.and_eq_true, decide_eq_true_eq] at h
    obtain ⟨⟨⟨⟨⟨⟨⟨⟨rfl, hlk⟩, h4⟩, hge⟩, hsz4⟩, hszpos⟩, hszmax⟩, hnext⟩, hrec⟩ := h
    exact ChainOK.node hlk h4 hge hsz4 hszpos hszmax hnext (chainOKB_sound hrec)

/-! ### The predecessor walk of free() -/

theorem free_find_prev_run {m : Mem} {hs he : Nat} {p : Nat} {x : Hdr}
    {l2 : List (Nat × Hdr)} :
    ∀ (l1 : List (Nat × Hdr)) (a : Nat) (acc : Option Nat) (fuel : Nat),
      ChainOK m hs he a (l1 ++ (p, x) :: l2) →
      0 < hs →
      l1.length < fuel →
      free_find_prev fuel m p a acc = some (l1.foldl (fun _ u => some u.1) acc)
  | [], a, acc, fuel, h, hhs, hfuel => by
    obtain ⟨x', l', heq, _⟩ := h.head_eq
    simp only [List.nil_append] at heq
    cases heq
    cases fuel with
    | zero => omega
    | succ fuel =>
      simp [free_find_prev]
  | (c, y) :: l1', a, acc, fuel, h, hhs, hfuel => by
    rw [List.cons_append] at h
    obtain ⟨ha0, hlk0, _, hge0, _, _, _, _, hch⟩ := h.cons_inv (by simp)
    have ha : a = c := ha0
    have hge : hs ≤ c := hge0
    have hlk : mlookup m c = some y := hlk0
    have hcp : c < p := by
      have := List.rel_of_pairwise_cons h.sorted
        (List.mem_append_right l1' (List.mem_cons_self (p, x) l2))
      exact this
    cases fuel with
    | zero => simp at hfuel
    | succ fuel =>
      rw [ha]
      simp only [free_find_prev]
      rw [if_neg (show ¬ (c = 0 ∨ c = p) by omega)]
      rw [hlk]
      show free_find_prev fuel m p y.next (some c) =
        some (List.foldl (fun _ u => some u.1) acc ((c, y) :: l1'))
      rw [free_find_prev_run l1' y.next (some c) fuel hch hhs (by simpa using hfuel)]
      rfl

/-! ### Chain surgery for the heap operations -/

theorem chain_replace_same_size {m : Mem} {hs he hf p : Nat} {x x' : Hdr}
    {l1 rest : List (Nat × Hdr)}
    (hch : ChainOK m hs he hf (l1 ++ (p, x) :: rest))
    (hrest : rest ≠ [])
    (hnext : x'.next = x.next) (hsz : GET_SIZE x'.size = GET_SIZE x.size) :
    ChainOK (mstore m p x') hs he hf (l1 ++ (p, x') :: rest) := by
  have hsub : ChainOK m hs he p ((p, x) :: rest) := hch.suffix
  obtain ⟨hp, hlkp, h4, hge, hsz4, hszpos, hszmax, hnx, hcht⟩ := hsub.cons_inv hrest
  refine hch.surgery ?_ ?_
  · intro u hu
    rw [mlookup_mstore, if_neg]
    · exact hch.lookup_of_mem (List.mem_append_left _ hu)
    · have := List.pairwise_append.mp hch.sorted
      have hlt := this.2.2 u hu (p, x) (List.mem_cons_self _ _)
      omega
  · refine ChainOK.node ?_ h4 hge (by rw [hsz]; exact hsz4) (by rw [hsz]; exact hszpos)
      (by rw [hsz]; exact hszmax) (by rw [hnext, hsz]; exact hnx) ?_
    · rw [mlookup_mstore, if_pos rfl]
    · rw [hnext]
      refine hcht.store_outside ?_
      intro u hu
      have := hcht.addr_lb u hu
      have hnxgt : p < x.next := by rw [hnx]; have := hszpos; omega
      omega

theorem chain_absorb {m : Mem} {hs he hf p q : Nat} {x y : Hdr}
    {l1 rest' : List (Nat × Hdr)}
    (hch : ChainOK m hs he hf (l1 ++ (p, x) :: (q, y) :: rest'))
    (hrest' : rest' ≠ [])
    (hbound : he ≤ hs + MALLOC_MAX_SIZE + 2 * HDR) :
    ChainOK (mstore m p ⟨y.next, GET_SIZE x.size + HDR + GET_SIZE y.size⟩) hs he hf
      (l1 ++ (p, ⟨y.next, GET_SIZE x.size + HDR + GET_SIZE y.size⟩) :: rest') := by
  have hsub : ChainOK m hs he p ((p, x) :: (q, y) :: rest') := hch.suffix
  obtain ⟨-, hlkp, h4, hge0, hsz40, hszpos0, hszmax0, hnx0, hcht⟩ := hsub.cons_inv (by simp)
  obtain ⟨hq0, hlkq, hq4, hqge, hqsz40, hqszpos0, hqszmax0, hqnx0, hchtt⟩ :=
    hcht.cons_inv hrest'
  obtain ⟨y', t', heq, -⟩ := hchtt.head_eq
  have hge : hs ≤ p := hge0
  have hsz4 : GET_SIZE x.size % 4 = 0 := hsz40
  have hqsz4 : GET_SIZE y.size % 4 = 0 := hqsz40
  have hszpos : 0 < GET_SIZE x.size := hszpos0
  have hqszpos : 0 < GET_SIZE y.size := hqszpos0
  have e1 : x.next = p + HDR + GET_SIZE x.size := hnx0
  have e3 : x.next = q := hq0
  have e2 : y.next = q + HDR + GET_SIZE y.size := hqnx0
  have hHDR : HDR = 8 := rfl
  have hry : y.next + HDR ≤ he := by
    have := hchtt.addr_ub (y.next, y') (by rw [heq]; exact List.mem_cons_self _ _)
    exact this
  have heven : (GET_SIZE x.size + HDR + GET_SIZE y.size) % 2 = 0 := by
    have h1 := @GET_SIZE_mod_two (x.size)
    have h2 := @GET_SIZE_mod_two (y.size)
    omega
  have hgs : GET_SIZE (GET_SIZE x.size + HDR + GET_SIZE y.size) =
      GET_SIZE x.size + HDR + GET_SIZE y.size := GET_SIZE_of_even heven
  refine hch.surgery ?_ ?_
  · intro u hu
    rw [mlookup_mstore, if_neg]
    · exact hch.lookup_of_mem (List.mem_append_left _ hu)
    · have := List.pairwise_append.mp hch.sorted
      have hlt := this.2.2 u hu (p, x) (List.mem_cons_self _ _)
      omega
  · refine ChainOK.node ?_ h4 hge0 ?_ ?_ ?_ ?_ ?_
    · rw [mlookup_mstore, if_pos rfl]
    · show GET_SIZE (GET_SIZE x.size + HDR + GET_SIZE y.size) % 4 = 0
      rw [hgs]
      omega
    · show 0 < GET_SIZE (GET_SIZE x.size + HDR + GET_SIZE y.size)
      rw [hgs]
      omega
    · show GET_SIZE (GET_SIZE x.size + HDR + GET_SIZE y.size) ≤ MALLOC_MAX_SIZE
      rw [hgs]
      omega
    · show y.next = p + HDR + GET_SIZE (GET_SIZE x.size + HDR + GET_SIZE y.size)
      rw [hgs]
      omega
    · show ChainOK _ hs he y.next rest'
      refine hchtt.store_outside ?_
      intro u hu
      have := hchtt.addr_lb u hu
      omega

theorem ChainOK.congr {m m' : Mem} {hs he : Nat}
    (hagree : ∀ a, mlookup m' a = mlookup m a) :
    ∀ {a : Nat} {l : List (Nat × Hdr)}, ChainOK m hs he a l → ChainOK m' hs he a l := by
  intro a l h
  induction h with
  | sent hlk hle => exact ChainOK.sent ((hagree _).trans hlk) hle
  | node hlk h4 hge hsz4 hszpos hszmax hnext _ ih =>
    exact ChainOK.node ((hagree _).trans hlk) h4 hge hsz4 hszpos hszmax hnext ih

theorem mlookup_mstore_mstore (m : Mem) (a : Nat) (x y : Hdr) (c : Nat) :
    mlookup (mstore (mstore m a x) a y) c = mlookup (mstore m a y) c := by
  rw [mlookup_mstore, mlookup_mstore, mlookup_mstore]
  by_cases hc : c = a <;> simp [hc]

/-! ### Counting and adjacency helpers -/

theorem countFree_append (l1 l2 : List (Nat × Hdr)) :
    countFree (l1 ++ l2) = countFree l1 + countFree l2 := by
  simp [countFree, List.countP_append]

theorem countFree_cons (u : Nat × Hdr) (l : List (Nat × Hdr)) :
    countFree (u :: l) = countFree l + if IS_USED u.2.size then 0 else 1 := by
  simp only [countFree, List.countP_cons]
  cases hb : IS_USED u.2.size <;> simp [hb]

theorem countFree_cons_used {u : Nat × Hdr} (l : List (Nat × Hdr))
    (h : IS_USED u.2.size = true) : countFree (u :: l) = countFree l := by
  rw [countFree_cons, h]
  simp

theorem countFree_cons_free {u : Nat × Hdr} (l : List (Nat × Hdr))
    (h : IS_USED u.2.size = false) : countFree (u :: l) = countFree l + 1 := by
  rw [countFree_cons, h]
  simp

theorem noAdj_append {l1 l2 : List (Nat × Hdr)} :
    NoAdj (l1 ++ l2) ↔ NoAdj l1 ∧ NoAdj l2 ∧
      ∀ u ∈ l1.getLast?, ∀ v ∈ l2.head?, adjOK u v := List.chain'_append

theorem noAdj_cons' {u : Nat × Hdr} {l : List (Nat × Hdr)} :
    NoAdj (u :: l) ↔ (∀ v ∈ l.head?, adjOK u v) ∧ NoAdj l := List.chain'_cons'

/-! ### The backward-merge half of free() -/

theorem free_backward_run {h2 : Heap} {p : Nat} {x2 : Hdr} {l1 restB : List (Nat × Hdr)}
    (hch2 : ChainOK h2.mem h2.heapStart h2.heapEnd h2.firstFree (l1 ++ (p, x2) :: restB))
    (hhs : 0 < h2.heapStart)
    (hbound : h2.heapEnd ≤ h2.heapStart + MALLOC_MAX_SIZE + 2 * HDR)
    (hrestB : restB ≠ [])
    (hx2 : IS_USED x2.size = false) :
    ∃ h' l', free_backward h2 p x2 = .ok () h' ∧
      ChainOK h'.mem h'.heapStart h'.heapEnd h'.firstFree l' ∧
      h'.heapStart = h2.heapStart ∧ h'.heapEnd = h2.heapEnd ∧
      h'.firstFree = h2.firstFree ∧ h'.data = h2.data ∧ h'.crit = h2.crit - 1 ∧
      (h2.freeCount = countFree (l1 ++ (p, x2) :: restB) →
        h'.freeCount = countFree l') ∧
      (NoAdj l1 → NoAdj restB → (∀ v ∈ restB.head?, IS_USED v.2.size = true) →
        NoAdj l') ∧
      (∃ z0, mlookup h'.mem p = some z0 ∧ IS_USED z0.size = false) := by
  have hlen : l1.length < h2.heapEnd + 1 := by
    have h1 := hch2.length_le
    rw [List.length_append, List.length_cons] at h1
    omega
  have hfp := free_find_prev_run l1 h2.firstFree none
    (h2.heapEnd + 1) hch2 hhs hlen
  have hlkp2 : mlookup h2.mem p = some x2 :=
    hch2.lookup_of_mem (List.mem_append_right _ (List.mem_cons_self _ _))
  rcases List.eq_nil_or_concat l1 with rfl | ⟨l1'', rz, hconcat⟩
  · refine ⟨critLeave h2, (p, x2) :: restB, ?_, ?_, rfl, rfl, rfl, rfl, rfl, ?_, ?_, ?_⟩
    · unfold free_backward
      rw [hfp]
      rfl
    · exact hch2
    · intro hc
      simpa using hc
    · intro _ hrB hhead
      exact noAdj_cons'.mpr ⟨fun v hv => Or.inr (hhead v hv), hrB⟩
    · exact ⟨x2, hlkp2, hx2⟩
  · rw [List.concat_eq_append] at hconcat
    subst hconcat
    obtain ⟨r, z⟩ := rz
    have hfold : (List.foldl (fun _ u => some u.1) none (l1'' ++ [(r, z)])) = some r := by
      rw [List.foldl_append]
      rfl
    have hmemrz : (r, z) ∈ l1'' ++ [(r, z)] := List.mem_append_right _ (List.mem_singleton_self _)
    have hlkr : mlookup h2.mem r = some z :=
      hch2.lookup_of_mem (List.mem_append_left _ hmemrz)
    have hrp : r < p := by
      have hpw := List.pairwise_append.mp hch2.sorted
      exact hpw.2.2 (r, z) hmemrz (p, x2) (List.mem_cons_self _ _)
    have hassoc : (l1'' ++ [(r, z)]) ++ (p, x2) :: restB =
        l1'' ++ (r, z) :: (p, x2) :: restB := by
      simp [List.append_assoc]
    by_cases hz : IS_USED z.size
    · refine ⟨critLeave h2, (l1'' ++ [(r, z)]) ++ (p, x2) :: restB, ?_, hch2,
        rfl, rfl, rfl, rfl, rfl, ?_, ?_, ⟨x2, hlkp2, hx2⟩⟩
      · unfold free_backward
        rw [hfp, hfold]
        simp [hlkr, hz]
      · intro hc
        exact hc
      · intro hl1 hrB hhead
        rw [noAdj_append]
        refine ⟨hl1, noAdj_cons'.mpr ⟨fun v hv => Or.inr (hhead v hv), hrB⟩, ?_⟩
        intro u hu v hv
        rw [List.getLast?_concat] at hu
        simp only [Option.mem_def, Option.some.injEq] at hu
        subst hu
        simp only [List.head?_cons, Option.mem_def, Option.some.injEq] at hv
        subst hv
        exact Or.inl hz
    · -- backward merge: absorb p into r
      have hchre : ChainOK h2.mem h2.heapStart h2.heapEnd h2.firstFree
          (l1'' ++ (r, z) :: (p, x2) :: restB) := by rw [← hassoc]; exact hch2
      have hvr : validate_block h2 r = true := by
        refine validate_block_of_chain
          (hchre.suffix : ChainOK h2.mem h2.heapStart h2.heapEnd r
            ((r, z) :: (p, x2) :: restB)) (by simp)
      have habsorb := chain_absorb hchre hrestB hbound
      refine ⟨critLeave { h2 with
          mem := mstore h2.mem r ⟨x2.next, GET_SIZE z.size + HDR + GET_SIZE x2.size⟩,
          freeCount := h2.freeCount - 1 },
        l1'' ++ (r, ⟨x2.next, GET_SIZE z.size + HDR + GET_SIZE x2.size⟩) :: restB,
        ?_, habsorb, rfl, rfl, rfl, rfl, rfl, ?_, ?_, ?_⟩
      · unfold free_backward
        rw [hfp, hfold]
        simp [hlkr, hz, hvr]
      · intro hc
        have hzf : IS_USED z.size = false := by simpa using hz
        have hzeven : IS_USED (GET_SIZE z.size + HDR + GET_SIZE x2.size) = false := by
          rw [IS_USED_eq_false]
          have e1 := @GET_SIZE_mod_two (z.size)
          have e2 := @GET_SIZE_mod_two (x2.size)
          have : HDR = 8 := rfl
          omega
        rw [hassoc] at hc
        rw [countFree_append, countFree_cons_free _ hzf, countFree_cons_free _ hx2] at hc
        show h2.freeCount - 1 = _
        rw [countFree_append, countFree_cons_free _ hzeven]
        omega
      · intro hl1 hrB hhead
        rw [noAdj_append] at hl1 ⊢
        obtain ⟨hl1'', -, hlast⟩ := hl1
        refine ⟨hl1'', ?_, ?_⟩
        · refine noAdj_cons'.mpr ⟨fun v hv => Or.inr (hhead v hv), hrB⟩
        · intro u hu v hv
          simp only [List.head?_cons, Option.mem_def, Option.some.injEq] at hv
          subst hv
          have := hlast u hu (r, z) (by simp)
          rcases this with h1 | h1
          · exact Or.inl h1
          · exact absurd h1 (by simp [hz])
      · refine ⟨x2, ?_, hx2⟩
        show mlookup (mstore h2.mem r ⟨x2.next, GET_SIZE z.size + HDR + GET_SIZE x2.size⟩) p =
          some x2
        rw [mlookup_mstore, if_neg (by omega), hlkp2]

/-! ### The validated body of free() -/

theorem free_eq_core {h : Heap} {ptr : Nat} {x : Hdr}
    (hne : ptr ≠ 0)
    (hlk : mlookup h.mem (ptr - HDR) = some x)
    (hv : validate_block (critEnter h) (ptr - HDR) = true)
    (hu : IS_USED x.size = true) :
    free h ptr = free_core (critEnter h) (ptr - HDR) x := by
  unfold free
  rw [if_neg hne]
  have hlk' : mlookup (critEnter h).mem (ptr - HDR) = some x := hlk
  simp only [hlk', hv, hu, Bool.and_self, if_true]

theorem free_core_noMerge {hE : Heap} {p : Nat} {x y : Hdr}
    (hne : x.next ≠ 0)
    (hlk : mlookup (mstore hE.mem p ⟨x.next, MARK_FREE x.size⟩) x.next = some y)
    (hy : IS_USED y.size = true) :
    free_core hE p x =
      free_backward
        { hE with mem := mstore hE.mem p ⟨x.next, MARK_FREE x.size⟩,
                  freeCount := hE.freeCount + 1 }
        p ⟨x.next, MARK_FREE x.size⟩ := by
  simp [free_core, hne, hlk, hy]

theorem free_core_merge {hE : Heap} {p : Nat} {x y : Hdr}
    (hne : x.next ≠ 0)
    (hlk : mlookup (mstore hE.mem p ⟨x.next, MARK_FREE x.size⟩) x.next = some y)
    (hy : IS_USED y.size = false) :
    free_core hE p x =
      free_backward
        { hE with
          mem := mstore (mstore hE.mem p ⟨x.next, MARK_FREE x.size⟩) p
            ⟨y.next, GET_SIZE (MARK_FREE x.size) + HDR + GET_SIZE y.size⟩,
          freeCount := hE.freeCount + 1 - 1 }
        p ⟨y.next, GET_SIZE (MARK_FREE x.size) + HDR + GET_SIZE y.size⟩ := by
  simp [free_core, hne, hlk, hy]

theorem free_ok {h : Heap} {l1 rest : List (Nat × Hdr)} {p : Nat} {x : Hdr}
    (hwf : WFD h (l1 ++ (p, x) :: rest))
    (hrest : rest ≠ [])
    (hused : IS_USED x.size = true) :
    ∃ h' l', free h (p + HDR) = .ok () h' ∧ WFD h' l' ∧
      h'.heapStart = h.heapStart ∧ h'.heapEnd = h.heapEnd ∧
      h'.firstFree = h.firstFree ∧ h'.data = h.data ∧ h'.crit = h.crit ∧
      (h.freeCount = countFree (l1 ++ (p, x) :: rest) → h'.freeCount = countFree l') ∧
      (NoAdj (l1 ++ (p, x) :: rest) → NoAdj l') ∧
      (∃ z0, mlookup h'.mem p = some z0 ∧ IS_USED z0.size = false) := by
  obtain ⟨hch, hhs, hbound⟩ := hwf
  have hsub : ChainOK h.mem h.heapStart h.heapEnd p ((p, x) :: rest) := hch.suffix
  obtain ⟨-, hlkp0, h4, hge0, hsz4, hszpos0, hszmax, hnx0, hcht⟩ := hsub.cons_inv hrest
  have hlkp : mlookup h.mem p = some x := hlkp0
  have hge : h.heapStart ≤ p := hge0
  have hszpos : 0 < GET_SIZE x.size := hszpos0
  have hnx : x.next = p + HDR + GET_SIZE x.size := hnx0
  obtain ⟨y, rest', hreq, hlkq0⟩ := hcht.head_eq
  have hlkq : mlookup h.mem x.next = some y := hlkq0
  have hHDR : HDR = 8 := rfl
  have hp0 : 0 < p := by omega
  have hnxp : p < x.next := by omega
  have hnxne : x.next ≠ 0 := by omega
  have hsubst : p + HDR - HDR = p := by omega
  have hvE : validate_block (critEnter h) (p + HDR - HDR) = true := by
    rw [hsubst]
    exact @validate_block_of_chain (critEnter h) _ _ _ hsub hrest
  have hstep : free h (p + HDR) = free_core (critEnter h) p x := by
    rw [free_eq_core (by omega) (by rw [hsubst]; exact hlkp) hvE hused, hsubst]
  have hlkq1 : mlookup (mstore (critEnter h).mem p ⟨x.next, MARK_FREE x.size⟩) x.next =
      some y := by
    rw [mlookup_mstore, if_neg (by omega)]
    exact hlkq
  -- the marked-free header replaces x with identical geometry
  have hch1 : ChainOK (mstore h.mem p ⟨x.next, MARK_FREE x.size⟩)
      h.heapStart h.heapEnd h.firstFree
      (l1 ++ (p, ⟨x.next, MARK_FREE x.size⟩) :: rest) :=
    chain_replace_same_size hch hrest rfl GET_SIZE_MARK_FREE
  by_cases hy : IS_USED y.size = true
  · -- no forward merge
    have hcore := @free_core_noMerge (critEnter h) p x _ hnxne hlkq1 hy
    obtain ⟨h', l', hrun, hch', hhs', hhe', hhf', hdata', hcrit', hcnt', hna', hlkp'⟩ :=
      @free_backward_run
        { critEnter h with
          mem := mstore (critEnter h).mem p ⟨x.next, MARK_FREE x.size⟩,
          freeCount := (critEnter h).freeCount + 1 }
        p ⟨x.next, MARK_FREE x.size⟩ l1 rest
        hch1 hhs hbound hrest IS_USED_MARK_FREE
    refine ⟨h', l', ?_, ⟨hch', ?_, ?_⟩, ?_, ?_, ?_, ?_, ?_, ?_, ?_, hlkp'⟩
    · rw [hstep, hcore, hrun]
    · rw [hhs']; exact hhs
    · rw [hhs', hhe']; exact hbound
    · exact hhs'
    · exact hhe'
    · exact hhf'
    · exact hdata'
    · rw [hcrit']
      show h.crit + 1 - 1 = h.crit
      omega
    · intro hcnt
      refine hcnt' ?_
      show h.freeCount + 1 = _
      rw [countFree_append, countFree_cons_free _ IS_USED_MARK_FREE] at *
      rw [countFree_cons_used _ hused] at hcnt
      omega
    · intro hna
      rw [noAdj_append] at hna
      obtain ⟨hnal1, hnacons, -⟩ := hna
      refine hna' hnal1 (noAdj_cons'.mp hnacons).2 ?_
      intro v hv
      rw [hreq] at hv
      simp only [List.head?_cons, Option.mem_def, Option.some.injEq] at hv
      subst hv
      exact hy
  · -- forward merge with the free successor
    have hyf : IS_USED y.size = false := by simpa using hy
    have hrest' : rest' ≠ [] := by
      intro hnil
      rw [hreq, hnil] at hcht
      obtain ⟨l'', hl''⟩ := hcht.last_sent
      have hl''nil : l'' = [] := by
        cases l'' with
        | nil => rfl
        | cons w t => simp at hl''
      subst hl''nil
      simp only [List.nil_append, List.cons.injEq] at hl''
      obtain ⟨heq1, -⟩ := hl''
      have hy1 : y = ⟨0, 1⟩ := (Prod.mk.injEq .. |>.mp heq1).2
      rw [hy1] at hyf
      simp [IS_USED] at hyf
    have hcore := @free_core_merge (critEnter h) p x _ hnxne hlkq1 hyf
    have hchm0 : ChainOK (mstore h.mem p ⟨y.next, GET_SIZE x.size + HDR + GET_SIZE y.size⟩)
        h.heapStart h.heapEnd h.firstFree
        (l1 ++ (p, ⟨y.next, GET_SIZE x.size + HDR + GET_SIZE y.size⟩) :: rest') := by
      refine @chain_absorb h.mem h.heapStart h.heapEnd h.firstFree p x.next x y l1 rest'
        ?_ hrest' hbound
      rw [← hreq]
      exact hch
    have hchm : ChainOK
        (mstore (mstore h.mem p ⟨x.next, MARK_FREE x.size⟩) p
          ⟨y.next, GET_SIZE (MARK_FREE x.size) + HDR + GET_SIZE y.size⟩)
        h.heapStart h.heapEnd h.firstFree
        (l1 ++ (p, ⟨y.next, GET_SIZE (MARK_FREE x.size) + HDR + GET_SIZE y.size⟩) :: rest') := by
      rw [GET_SIZE_MARK_FREE]
      refine ChainOK.congr ?_ hchm0
      intro a
      rw [mlookup_mstore_mstore]
    have hmfree : IS_USED (GET_SIZE (MARK_FREE x.size) + HDR + GET_SIZE y.size) = false := by
      rw [IS_USED_eq_false, GET_SIZE_MARK_FREE]
      have e1 := @GET_SIZE_mod_two (x.size)
      have e2 := @GET_SIZE_mod_two (y.size)
      omega
    obtain ⟨h', l', hrun, hch', hhs', hhe', hhf', hdata', hcrit', hcnt', hna', hlkp'⟩ :=
      @free_backward_run
        { critEnter h with
          mem := mstore (mstore (critEnter h).mem p ⟨x.next, MARK_FREE x.size⟩) p
            ⟨y.next, GET_SIZE (MARK_FREE x.size) + HDR + GET_SIZE y.size⟩,
          freeCount := (critEnter h).freeCount + 1 - 1 }
        p ⟨y.next, GET_SIZE (MARK_FREE x.size) + HDR + GET_SIZE y.size⟩ l1 rest'
        hchm hhs hbound hrest' hmfree
    refine ⟨h', l', ?_, ⟨hch', ?_, ?_⟩, ?_, ?_, ?_, ?_, ?_, ?_, ?_, hlkp'⟩
    · rw [hstep, hcore, hrun]
    · rw [hhs']; exact hhs
    · rw [hhs', hhe']; exact hbound
    · exact hhs'
    · exact hhe'
    · exact hhf'
    · exact hdata'
    · rw [hcrit']
      show h.crit + 1 - 1 = h.crit
      omega
    · intro hcnt
      refine hcnt' ?_
      show h.freeCount + 1 - 1 = _
      rw [countFree_append, countFree_cons_free _ hmfree]
      rw [countFree_append, countFree_cons_used _ hused, hreq,
        countFree_cons_free _ hyf] at hcnt
      omega
    · intro hna
      rw [noAdj_append] at hna
      obtain ⟨hnal1, hnacons, -⟩ := hna
      have hnarest : NoAdj rest := (noAdj_cons'.mp hnacons).2
      rw [hreq] at hnarest
      obtain ⟨hhead', hnarest'⟩ := noAdj_cons'.mp hnarest
      refine hna' hnal1 hnarest' ?_
      intro v hv
      have := hhead' v hv
      rcases this with h1 | h1
      · rw [h1] at hyf
        cases hyf
      · exact h1

/-! ### The coalescing sweep -/

theorem coalesce_loop_run :
    ∀ (fuel : Nat) (h : Heap) (a : Nat) (l1 L : List (Nat × Hdr)) (h' : Heap),
      ChainOK h.mem h.heapStart h.heapEnd h.firstFree (l1 ++ L) →
      ChainOK h.mem h.heapStart h.heapEnd a L →
      0 < h.heapStart →
      h.heapEnd ≤ h.heapStart + MALLOC_MAX_SIZE + 2 * HDR →
      NoAdj (l1 ++ L.take 1) →
      coalesce_loop fuel h a = .ok () h' →
      ∃ l', ChainOK h'.mem h'.heapStart h'.heapEnd h'.firstFree l' ∧
        h'.heapStart = h.heapStart ∧ h'.heapEnd = h.heapEnd ∧ h'.firstFree = h.firstFree ∧
        h'.data = h.data ∧ h'.crit = h.crit ∧ h'.freeCount ≤ h.freeCount ∧ NoAdj l' ∧
        (h.freeCount = countFree (l1 ++ L) → h'.freeCount = countFree l') ∧
        (∀ u ∈ l1 ++ L, IS_USED u.2.size = true → u ∈ l')
  | 0, h, a, l1, L, h', _, _, _, _, _, hrun => by
    simp [coalesce_loop] at hrun
  | fuel + 1, h, a, l1, L, h', hfull, hsubL, hhs, hbound, hna, hrun => by
    have ha0 : a ≠ 0 := by
      have := hsubL.pos hhs
      omega
    obtain ⟨x, Lt, heqL, hlk0⟩ := hsubL.head_eq
    subst heqL
    have hlk : mlookup h.mem a = some x := hlk0
    rw [coalesce_loop, if_neg ha0] at hrun
    simp only [hlk] at hrun
    by_cases hx0 : x.next = 0
    · rw [if_pos hx0] at hrun
      have hh' : h' = h := by
        cases hrun
        rfl
      subst hh'
      -- the only chain node with a null next link is the sentinel
      obtain ⟨hx1, hLtnil, -⟩ := hsubL.next_zero hx0
      subst hx1
      subst hLtnil
      refine ⟨l1 ++ [(a, ⟨0, 1⟩)], hfull, rfl, rfl, rfl, rfl, rfl,
        le_refl _, ?_, fun hc => hc, fun u hu _ => hu⟩
      simpa using hna
    · rw [if_neg hx0] at hrun
      have hLt : Lt ≠ [] := by
        intro hnil
        subst hnil
        obtain ⟨hx1, -⟩ := hsubL.singleton_inv
        rw [hx1] at hx0
        exact hx0 rfl
      obtain ⟨-, -, h4, hge0, hsz4, hszpos0, hszmax0, hnx0, hcht⟩ := hsubL.cons_inv hLt
      by_cases hvB : validateH h a x = false
      · rw [if_pos hvB] at hrun
        cases hrun
      rw [if_neg hvB] at hrun
      obtain ⟨y, Lt', heqt, hlky0⟩ := hcht.head_eq
      subst heqt
      have hlky : mlookup h.mem x.next = some y := hlky0
      simp only [hlky] at hrun
      by_cases hm : IS_USED x.size = false ∧ IS_USED y.size = false
      · rw [if_pos hm] at hrun
        obtain ⟨hxf, hyf⟩ := hm
        have hLt' : Lt' ≠ [] := by
          intro hnil
          subst hnil
          obtain ⟨l'', hl''⟩ := hcht.last_sent
          have hlnil : l'' = [] := by
            cases l'' with
            | nil => rfl
            | cons w t => simp at hl''
          subst hlnil
          simp only [List.nil_append, List.cons.injEq] at hl''
          obtain ⟨heq1, -⟩ := hl''
          have hy1 : y = ⟨0, 1⟩ := (Prod.mk.injEq .. |>.mp heq1).2
          rw [hy1] at hyf
          simp [IS_USED] at hyf
        have hmergef : IS_USED (GET_SIZE x.size + HDR + GET_SIZE y.size) = false := by
          rw [IS_USED_eq_false]
          have e1 := @GET_SIZE_mod_two (x.size)
          have e2 := @GET_SIZE_mod_two (y.size)
          have e3 : HDR = 8 := rfl
          omega
        have habs : ChainOK
            (mstore h.mem a ⟨y.next, GET_SIZE x.size + HDR + GET_SIZE y.size⟩)
            h.heapStart h.heapEnd h.firstFree
            (l1 ++ (a, ⟨y.next, GET_SIZE x.size + HDR + GET_SIZE y.size⟩) :: Lt') :=
          @chain_absorb h.mem h.heapStart h.heapEnd h.firstFree a x.next x y l1 Lt'
            hfull hLt' hbound
        have hnaNew : NoAdj (l1 ++
            (((a, (⟨y.next, GET_SIZE x.size + HDR + GET_SIZE y.size⟩ : Hdr)) :: Lt').take 1)) := by
          simp only [List.take_succ_cons, List.take_zero]
          have hnaOld : NoAdj (l1 ++ [(a, x)]) := by simpa using hna
          rw [noAdj_append] at hnaOld ⊢
          obtain ⟨hh1, -, hh3⟩ := hnaOld
          refine ⟨hh1, List.chain'_singleton _, ?_⟩
          intro u hu v hv
          simp only [List.head?_cons, Option.mem_def, Option.some.injEq] at hv
          subst hv
          have := hh3 u hu (a, x) (by simp)
          rcases this with h5 | h5
          · exact Or.inl h5
          · rw [h5] at hxf
            cases hxf
        obtain ⟨l', c1, c2, c3, c4, c5, c6, c7, c8, c9, c10⟩ :=
          coalesce_loop_run fuel
            { h with
              mem := mstore h.mem a ⟨y.next, GET_SIZE x.size + HDR + GET_SIZE y.size⟩,
              freeCount := h.freeCount - 1 } a l1
            ((a, ⟨y.next, GET_SIZE x.size + HDR + GET_SIZE y.size⟩) :: Lt') h'
            habs habs.suffix hhs hbound hnaNew hrun
        refine ⟨l', c1, c2, c3, c4, c5, c6, ?_, c8, ?_, ?_⟩
        · show h'.freeCount ≤ h.freeCount
          have : h'.freeCount ≤ h.freeCount - 1 := c7
          omega
        · intro hc
          refine c9 ?_
          show h.freeCount - 1 = _
          rw [countFree_append, countFree_cons_free _ hxf, countFree_cons_free _ hyf] at hc
          rw [countFree_append, countFree_cons_free _ hmergef]
          omega
        · intro u hu huse
          refine c10 u ?_ huse
          rw [List.mem_append] at hu ⊢
          rcases hu with hu | hu
          · exact Or.inl hu
          · right
            rcases List.mem_cons.mp hu with rfl | hu
            · have huse' : IS_USED x.size = true := huse
              rw [hxf] at huse'
              cases huse'
            · rcases List.mem_cons.mp hu with rfl | hu
              · have huse' : IS_USED y.size = true := huse
                rw [hyf] at huse'
                cases huse'
              · exact List.mem_cons_of_mem _ hu
      · rw [if_neg hm] at hrun
        have hadj : adjOK (a, x) (x.next, y) := by
          unfold adjOK
          cases hxu : IS_USED x.size with
          | true => exact Or.inl rfl
          | false =>
            cases hyu : IS_USED y.size with
            | true => exact Or.inr rfl
            | false => exact absurd ⟨hxu, hyu⟩ hm
        have hfull' : ChainOK h.mem h.heapStart h.heapEnd h.firstFree
            ((l1 ++ [(a, x)]) ++ (x.next, y) :: Lt') := by
          rw [List.append_assoc]
          exact hfull
        have hnaAdv : NoAdj ((l1 ++ [(a, x)]) ++ ((x.next, y) :: Lt').take 1) := by
          simp only [List.take_succ_cons, List.take_zero]
          have hnaOld : NoAdj (l1 ++ [(a, x)]) := by simpa using hna
          rw [noAdj_append]
          refine ⟨hnaOld, List.chain'_singleton _, ?_⟩
          intro u hu v hv
          rw [List.getLast?_concat] at hu
          simp only [Option.mem_def, Option.some.injEq] at hu
          subst hu
          simp only [List.head?_cons, Option.mem_def, Option.some.injEq] at hv
          subst hv
          exact hadj
        obtain ⟨l', c1, c2, c3, c4, c5, c6, c7, c8, c9, c10⟩ :=
          coalesce_loop_run fuel h x.next (l1 ++ [(a, x)]) ((x.next, y) :: Lt') h'
            hfull' hcht hhs hbound hnaAdv hrun
        refine ⟨l', c1, c2, c3, c4, c5, c6, c7, c8, ?_, ?_⟩
        · intro hc
          apply c9
          simpa using hc
        · intro u hu huse
          refine c10 u ?_ huse
          simpa using hu

/-! ### The first-fit walk of malloc() -/

theorem split_block_eq {h : Heap} {b : Nat} {x : Hdr} (hlk : mlookup h.mem b = some x)
    {size : Nat} (hle : size ≤ GET_SIZE x.size) :
    split_block h b size =
      if GET_SIZE x.size - size < HDR + MALLOC_MIN_SIZE then .ok () h
      else .ok () { h with
        mem := mstore (mstore h.mem (b + HDR + size)
          ⟨x.next, MARK_FREE (GET_SIZE x.size - size - HDR)⟩) b
          ⟨b + HDR + size, orUsedBit size (usedBit x.size)⟩,
        freeCount := h.freeCount + 1 } := by
  unfold split_block
  simp only [hlk]
  rw [if_neg (not_lt.mpr hle)]

theorem validateH_pos {h : Heap} {a : Nat} {x : Hdr} (hv : validateH h a x = true) :
    0 < GET_SIZE x.size := by
  simp only [validateH, Bool.and_eq_true, decide_eq_true_eq] at hv
  obtain ⟨⟨⟨⟨⟨⟨hA, hB⟩, hC⟩, hD⟩, hE⟩, hF⟩, hG⟩ := hv
  exact hD

theorem malloc_loop_run {size : Nat} (hsz4 : size % 4 = 0) (hszpos : 0 < size) :
    ∀ (fuel : Nat) (h : Heap) (a : Nat) (l1 L : List (Nat × Hdr)) (v : Nat) (h' : Heap),
      ChainOK h.mem h.heapStart h.heapEnd h.firstFree (l1 ++ L) →
      ChainOK h.mem h.heapStart h.heapEnd a L →
      0 < h.heapStart →
      malloc_loop fuel h size a = .ok v h' →
      ∃ l', ChainOK h'.mem h'.heapStart h'.heapEnd h'.firstFree l' ∧
        h'.heapStart = h.heapStart ∧ h'.heapEnd = h.heapEnd ∧ h'.firstFree = h.firstFree ∧
        h'.data = h.data ∧ h'.crit = h.crit - 1 ∧ 0 < v ∧
        (h.freeCount = countFree (l1 ++ L) → h'.freeCount = countFree l') ∧
        (NoAdj (l1 ++ L) → NoAdj l') ∧
        (∀ u ∈ l1 ++ L, IS_USED u.2.size = true → u ∈ l')
  | 0, h, a, l1, L, v, h', _, _, _, hrun => by
    simp [malloc_loop] at hrun
  | fuel + 1, h, a, l1, L, v, h', hfull, hsubL, hhs, hrun => by
    have ha0 : a ≠ 0 := by
      have := hsubL.pos hhs
      omega
    obtain ⟨x, Lt, heqL, hlk0⟩ := hsubL.head_eq
    subst heqL
    have hlk : mlookup h.mem a = some x := hlk0
    rw [malloc_loop, if_neg ha0] at hrun
    simp only [hlk] at hrun
    by_cases hv : validateH h a x = true
    case neg =>
      rw [if_neg hv] at hrun
      cases hrun
    rw [if_pos hv] at hrun
    have hLtx : Lt = [] → x = ⟨0, 1⟩ := by
      intro hnil
      subst hnil
      exact hsubL.singleton_inv.1
    by_cases hsel : IS_USED x.size = false ∧ size ≤ GET_SIZE x.size
    · -- first fit: select this block
      rw [if_pos hsel] at hrun
      obtain ⟨hxf, hfit⟩ := hsel
      have hLt : Lt ≠ [] := by
        intro hnil
        rw [hLtx hnil] at hxf
        simp [IS_USED] at hxf
      obtain ⟨-, -, h4, hge0, hxsz4, hxszpos, hxszmax, hnx0, hcht⟩ := hsubL.cons_inv hLt
      have hge : h.heapStart ≤ a := hge0
      have h4' : a % 4 = 0 := h4
      have hxsz4' : GET_SIZE x.size % 4 = 0 := hxsz4
      have hxszpos' : 0 < GET_SIZE x.size := hxszpos
      have hnx : x.next = a + HDR + GET_SIZE x.size := hnx0
      have hxszmax' : GET_SIZE x.size ≤ MALLOC_MAX_SIZE := hxszmax
      have hchtc : ChainOK h.mem h.heapStart h.heapEnd x.next Lt := hcht
      have hHDR : HDR = 8 := rfl
      have hMIN : MALLOC_MIN_SIZE = 8 := rfl
      have hsz2 : size % 2 = 0 := by omega
      have hxev := @GET_SIZE_mod_two (x.size)
      have horb : orUsedBit size (usedBit x.size) = size := by
        have : usedBit x.size = 0 := by
          have := IS_USED_eq_false.mp hxf
          unfold usedBit
          omega
        rw [this]
        rfl
      -- the successor of the selected free block, for adjacency facts
      obtain ⟨y, Lt', heqt, hlky0⟩ := hcht.head_eq
      rw [split_block_eq hlk hfit] at hrun
      by_cases hrem : GET_SIZE x.size - size < HDR + MALLOC_MIN_SIZE
      · -- no split: just mark used
        rw [if_pos hrem] at hrun
        simp only [hlk] at hrun
        by_cases hc0 : h.freeCount = 0
        case pos =>
          rw [if_pos hc0] at hrun
          cases hrun
        rw [if_neg hc0] at hrun
        cases hrun
        refine ⟨l1 ++ (a, ⟨x.next, MARK_USED x.size⟩) :: Lt, ?_, rfl, rfl, rfl, rfl, rfl,
          (by omega : (0 : Nat) < a + HDR), ?_, ?_, ?_⟩
        · exact chain_replace_same_size hfull hLt rfl GET_SIZE_MARK_USED
        · intro hc
          show h.freeCount - 1 = _
          rw [countFree_append, countFree_cons_free _ hxf] at hc
          rw [countFree_append, countFree_cons_used _ IS_USED_MARK_USED]
          omega
        · intro hna
          rw [noAdj_append] at hna ⊢
          obtain ⟨hna1, hna2, hna3⟩ := hna
          obtain ⟨hheadp, hnaLt⟩ := noAdj_cons'.mp hna2
          refine ⟨hna1, noAdj_cons'.mpr ⟨?_, hnaLt⟩, ?_⟩
          · intro w hw
            exact Or.inl IS_USED_MARK_USED
          · intro u hu w hw
            simp only [List.head?_cons, Option.mem_def, Option.some.injEq] at hw
            subst hw
            exact Or.inr IS_USED_MARK_USED
        · intro u hu huse
          rw [List.mem_append] at hu ⊢
          rcases hu with hu | hu
          · exact Or.inl hu
          · right
            rcases List.mem_cons.mp hu with rfl | hu
            · have huse' : IS_USED x.size = true := huse
              rw [hxf] at huse'
              cases huse'
            · exact List.mem_cons_of_mem _ hu
      · -- split off the remainder, then mark used
        rw [if_neg hrem] at hrun
        have hlkmark : mlookup (mstore (mstore h.mem (a + HDR + size)
            ⟨x.next, MARK_FREE (GET_SIZE x.size - size - HDR)⟩) a
            ⟨a + HDR + size, orUsedBit size (usedBit x.size)⟩) a =
            some ⟨a + HDR + size, orUsedBit size (usedBit x.size)⟩ := by
          rw [mlookup_mstore, if_pos rfl]
        simp only [hlkmark] at hrun
        rw [if_neg (show ¬ (h.freeCount + 1 = 0) by omega)] at hrun
        rw [horb] at hrun
        cases hrun
        -- the new used header and the free remainder
        have hremAddrs : ∀ u ∈ Lt, a < u.1 ∧ a + HDR + size < u.1 := by
          intro u hu
          have := hchtc.addr_lb u hu
          constructor <;> omega
        have hl1Addrs : ∀ u ∈ l1, u.1 < a := by
          intro u hu
          have hpw := List.pairwise_append.mp hfull.sorted
          exact hpw.2.2 u hu (a, x) (List.mem_cons_self _ _)
        have hchain' : ChainOK
            (mstore (mstore (mstore h.mem (a + HDR + size)
              ⟨x.next, MARK_FREE (GET_SIZE x.size - size - HDR)⟩) a
              ⟨a + HDR + size, size⟩) a
              ⟨a + HDR + size, MARK_USED size⟩)
            h.heapStart h.heapEnd h.firstFree
            (l1 ++ (a, ⟨a + HDR + size, MARK_USED size⟩) ::
              (a + HDR + size, ⟨x.next, MARK_FREE (GET_SIZE x.size - size - HDR)⟩) :: Lt) := by
          refine hfull.surgery ?_ ?_
          · intro u hu
            have hua := hl1Addrs u hu
            rw [mlookup_mstore, if_neg (by omega), mlookup_mstore, if_neg (by omega),
              mlookup_mstore, if_neg (by omega)]
            exact hfull.lookup_of_mem (List.mem_append_left _ hu)
          · refine ChainOK.node ?_ h4' hge ?_ ?_ ?_ ?_ ?_
            · rw [mlookup_mstore, if_pos rfl]
            · show GET_SIZE (MARK_USED size) % 4 = 0
              rw [GET_SIZE_MARK_USED, GET_SIZE_of_even hsz2]
              exact hsz4
            · show 0 < GET_SIZE (MARK_USED size)
              rw [GET_SIZE_MARK_USED, GET_SIZE_of_even hsz2]
              exact hszpos
            · show GET_SIZE (MARK_USED size) ≤ MALLOC_MAX_SIZE
              rw [GET_SIZE_MARK_USED, GET_SIZE_of_even hsz2]
              omega
            · show (a + HDR + size : Nat) = a + HDR + GET_SIZE (MARK_USED size)
              rw [GET_SIZE_MARK_USED, GET_SIZE_of_even hsz2]
            · refine ChainOK.node ?_ ?_ ?_ ?_ ?_ ?_ ?_ ?_
              · have hne1 : ¬ (a + HDR + size = a) := by omega
                rw [mlookup_mstore, if_neg hne1, mlookup_mstore, if_neg hne1,
                  mlookup_mstore, if_pos rfl]
              · show (a + HDR + size) % 4 = 0
                omega
              · show h.heapStart ≤ a + HDR + size
                omega
              · show GET_SIZE (MARK_FREE (GET_SIZE x.size - size - HDR)) % 4 = 0
                rw [GET_SIZE_MARK_FREE, GET_SIZE_of_even (by omega)]
                omega
              · show 0 < GET_SIZE (MARK_FREE (GET_SIZE x.size - size - HDR))
                rw [GET_SIZE_MARK_FREE, GET_SIZE_of_even (by omega)]
                omega
              · show GET_SIZE (MARK_FREE (GET_SIZE x.size - size - HDR)) ≤ MALLOC_MAX_SIZE
                rw [GET_SIZE_MARK_FREE, GET_SIZE_of_even (by omega)]
                omega
              · show x.next = (a + HDR + size) + HDR +
                  GET_SIZE (MARK_FREE (GET_SIZE x.size - size - HDR))
                rw [GET_SIZE_MARK_FREE, GET_SIZE_of_even (by omega)]
                omega
              · refine (hchtc.store_outside ?_).store_outside ?_ |>.store_outside ?_ <;>
                  · intro u hu
                    have := hremAddrs u hu
                    omega
        refine ⟨l1 ++ (a, ⟨a + HDR + size, MARK_USED size⟩) ::
            (a + HDR + size, ⟨x.next, MARK_FREE (GET_SIZE x.size - size - HDR)⟩) :: Lt,
          ?_, rfl, rfl, rfl, rfl, rfl, (by omega : (0 : Nat) < a + HDR), ?_, ?_, ?_⟩
        · exact hchain'
        · intro hc
          show h.freeCount + 1 - 1 = _
          rw [countFree_append, countFree_cons_free _ hxf] at hc
          rw [countFree_append, countFree_cons_used _ IS_USED_MARK_USED,
            countFree_cons_free _ IS_USED_MARK_FREE]
          omega
        · intro hna
          rw [noAdj_append] at hna ⊢
          obtain ⟨hna1, hna2, hna3⟩ := hna
          obtain ⟨hheadp, hnaLt⟩ := noAdj_cons'.mp hna2
          refine ⟨hna1, ?_, ?_⟩
          · refine noAdj_cons'.mpr ⟨fun w hw => Or.inl IS_USED_MARK_USED, ?_⟩
            refine noAdj_cons'.mpr ⟨?_, hnaLt⟩
            intro w hw
            have := hheadp w hw
            rcases this with h5 | h5
            · rw [h5] at hxf
              cases hxf
            · exact Or.inr h5
          · intro u hu w hw
            simp only [List.head?_cons, Option.mem_def, Option.some.injEq] at hw
            subst hw
            exact Or.inr IS_USED_MARK_USED
        · intro u hu huse
          rw [List.mem_append] at hu ⊢
          rcases hu with hu | hu
          · exact Or.inl hu
          · right
            rcases List.mem_cons.mp hu with rfl | hu
            · have huse' : IS_USED x.size = true := huse
              rw [hxf] at huse'
              cases huse'
            · exact List.mem_cons_of_mem _ (List.mem_cons_of_mem _ hu)
    · -- not selected: continue the walk
      rw [if_neg hsel] at hrun
      have hLt : Lt ≠ [] := by
        intro hnil
        rw [hLtx hnil] at hv
        have := validateH_pos hv
        simp [GET_SIZE] at this
      obtain ⟨-, -, h4, hge0, hxsz4, hxszpos, hxszmax, hnx0, hcht⟩ := hsubL.cons_inv hLt
      have hfull' : ChainOK h.mem h.heapStart h.heapEnd h.firstFree
          ((l1 ++ [(a, x)]) ++ Lt) := by
        rw [List.append_assoc]
        exact hfull
      obtain ⟨l', c1, c2, c3, c4, c5, c6, c7, c8, c9, c10⟩ :=
        malloc_loop_run hsz4 hszpos fuel h x.next (l1 ++ [(a, x)]) Lt v h'
          hfull' hcht hhs hrun
      refine ⟨l', c1, c2, c3, c4, c5, c6, c7, ?_, ?_, ?_⟩
      · intro hc
        apply c8
        simpa using hc
      · intro hna
        apply c9
        simpa using hna
      · intro u hu huse
        refine c10 u ?_ huse
        simpa using hu

/-- Any one-element prefix of a block list trivially satisfies the
adjacency invariant. -/
theorem noAdj_take_one {l : List (Nat × Hdr)} : NoAdj (l.take 1) := by
  cases l with
  | nil => exact List.chain'_nil
  | cons u t => exact List.chain'_singleton u

/-- malloc() success lemma: on a well-formed heap with an accurate free
counter and no adjacent free pair, a run of malloc that returns normally
preserves well-formedness, the region bounds, the list head, the payload
bytes and the critical-section depth, keeps the counter accurate and the
adjacency invariant, retains every used block, and returns null only in
the input-validation branch, which leaves the heap untouched. -/
theorem malloc_ok {h0 : Heap} {l : List (Nat × Hdr)} {size v : Nat} {h' : Heap}
    (hwf : WFD h0 l) (hcnt : h0.freeCount = countFree l) (hna : NoAdj l)
    (hrun : malloc h0 size = .ok v h') :
    ∃ l', WFD h' l' ∧
      h'.heapStart = h0.heapStart ∧ h'.heapEnd = h0.heapEnd ∧
      h'.firstFree = h0.firstFree ∧ h'.data = h0.data ∧ h'.crit = h0.crit ∧
      h'.freeCount = countFree l' ∧ NoAdj l' ∧
      (∀ u ∈ l, IS_USED u.2.size = true → u ∈ l') ∧
      (v = 0 → h' = h0 ∧ l' = l) := by
  by_cases hc : size = 0 ∨ MALLOC_MAX_SIZE < size
  · have hrun2 : (Out.ok 0 h0 : Out Nat) = .ok v h' := by
      rw [← hrun]
      simp only [malloc, if_pos hc]
    cases hrun2
    exact ⟨l, hwf, rfl, rfl, rfl, rfl, rfl, hcnt, hna, fun u hu _ => hu,
      fun _ => ⟨rfl, rfl⟩⟩
  · simp only [malloc, if_neg hc] at hrun
    have hsz4 : (if ALIGN4 size < MALLOC_MIN_SIZE then MALLOC_MIN_SIZE
        else ALIGN4 size) % 4 = 0 := by
      split
      · rfl
      · exact ALIGN4_mod_four
    have hszpos : 0 < (if ALIGN4 size < MALLOC_MIN_SIZE then MALLOC_MIN_SIZE
        else ALIGN4 size) := by
      have hMIN : MALLOC_MIN_SIZE = 8 := rfl
      split <;> omega
    have hchE : ChainOK (critEnter h0).mem (critEnter h0).heapStart
        (critEnter h0).heapEnd (critEnter h0).firstFree ([] ++ l) := by
      simpa using hwf.chain
    have hhsE : 0 < (critEnter h0).heapStart := hwf.hsPos
    have hboundE : (critEnter h0).heapEnd ≤
        (critEnter h0).heapStart + MALLOC_MAX_SIZE + 2 * HDR := hwf.bound
    by_cases hco : COALESCE_THRESHOLD < (critEnter h0).freeCount
    · rw [if_pos hco] at hrun
      cases hres : coalesce_loop ((critEnter h0).heapEnd + 1) (critEnter h0)
          (critEnter h0).firstFree with
      | fault hf =>
        rw [hres] at hrun
        cases hrun
      | ok u h1 =>
        simp only [hres] at hrun
        obtain ⟨l1, hch1, hhs1, hhe1, hff1, hdata1, hcrit1, -, hna1, hcnt1, hpres1⟩ :=
          coalesce_loop_run ((critEnter h0).heapEnd + 1) (critEnter h0)
            (critEnter h0).firstFree [] l h1 hchE hchE hhsE hboundE
            (by simpa using @noAdj_take_one l) hres
        have hcnt1' : h1.freeCount = countFree l1 := hcnt1 (by simpa using hcnt)
        have hhs1p : 0 < h1.heapStart := by
          rw [hhs1]
          exact hhsE
        obtain ⟨l', hch', hhs', hhe', hff', hdata', hcrit', hvpos, hcnt', hna', hpres'⟩ :=
          malloc_loop_run hsz4 hszpos (h1.heapEnd + 1) h1 h1.firstFree [] l1 v h'
            (by simpa using hch1) (by simpa using hch1) hhs1p hrun
        refine ⟨l', ⟨hch', ?_, ?_⟩, ?_, ?_, ?_, ?_, ?_, ?_, ?_, ?_, ?_⟩
        · rw [hhs', hhs1]
          exact hwf.hsPos
        · rw [hhs', hhe', hhs1, hhe1]
          exact hwf.bound
        · rw [hhs', hhs1]
          rfl
        · rw [hhe', hhe1]
          rfl
        · rw [hff', hff1]
          rfl
        · rw [hdata', hdata1]
          rfl
        · have hcE : (critEnter h0).crit = h0.crit + 1 := rfl
          omega
        · exact hcnt' (by simpa using hcnt1')
        · exact hna' (by simpa using hna1)
        · intro w hw huse
          exact hpres' w (by simpa using hpres1 w (by simpa using hw) huse) huse
        · intro hv0
          omega
    · rw [if_neg hco] at hrun
      have hrun2 : malloc_loop ((critEnter h0).heapEnd + 1) (critEnter h0)
          (if ALIGN4 size < MALLOC_MIN_SIZE then MALLOC_MIN_SIZE else ALIGN4 size)
          (critEnter h0).firstFree = .ok v h' := hrun
      obtain ⟨l', hch', hhs', hhe', hff', hdata', hcrit', hvpos, hcnt', hna', hpres'⟩ :=
        malloc_loop_run hsz4 hszpos ((critEnter h0).heapEnd + 1) (critEnter h0)
          (critEnter h0).firstFree [] l v h' hchE hchE hhsE hrun2
      refine ⟨l', ⟨hch', ?_, ?_⟩, ?_, ?_, ?_, ?_, ?_, ?_, ?_, ?_, ?_⟩
      · rw [hhs']
        exact hwf.hsPos
      · rw [hhs', hhe']
        exact hwf.bound
      · exact hhs'
      · exact hhe'
      · exact hff'
      · exact hdata'
      · have hcE : (critEnter h0).crit = h0.crit + 1 := rfl
        omega
      · exact hcnt' (by simpa using hcnt)
      · exact hna' (by simpa using hna)
      · intro w hw huse
        exact hpres' w (by simpa using hw) huse
      · intro hv0
        omega

theorem memsetData_in {d : Data} {p v n a : Nat} (h1 : p ≤ a) (h2 : a < p + n) :
    memsetData d p v n a = v := by
  unfold memsetData
  rw [if_pos ⟨h1, h2⟩]

theorem memcpyData_in {d : Data} {dst src n a : Nat} (h1 : dst ≤ a) (h2 : a < dst + n) :
    memcpyData d dst src n a = d (src + (a - dst)) := by
  unfold memcpyData
  rw [if_pos ⟨h1, h2⟩]

/-- The coalescing sweep never touches a used header, the payload bytes or
the critical-section depth, and never changes the region bounds or list
head (no well-formedness needed). -/
theorem coalesce_loop_frame :
    ∀ (fuel : Nat) (h : Heap) (a : Nat) (h' : Heap),
      coalesce_loop fuel h a = .ok () h' →
      h'.data = h.data ∧ h'.crit = h.crit ∧ h'.heapStart = h.heapStart ∧
      h'.heapEnd = h.heapEnd ∧ h'.firstFree = h.firstFree ∧
      (∀ b x, mlookup h.mem b = some x → IS_USED x.size = true →
        mlookup h'.mem b = some x)
  | 0, h, a, h', hrun => by simp [coalesce_loop] at hrun
  | fuel + 1, h, a, h', hrun => by
    rw [coalesce_loop] at hrun
    by_cases ha : a = 0
    · rw [if_pos ha] at hrun
      cases hrun
      exact ⟨rfl, rfl, rfl, rfl, rfl, fun b x hb _ => hb⟩
    rw [if_neg ha] at hrun
    cases hlk : mlookup h.mem a with
    | none =>
      simp only [hlk] at hrun
      cases hrun
    | some x =>
      simp only [hlk] at hrun
      by_cases hx0 : x.next = 0
      · rw [if_pos hx0] at hrun
        cases hrun
        exact ⟨rfl, rfl, rfl, rfl, rfl, fun b z hb _ => hb⟩
      rw [if_neg hx0] at hrun
      by_cases hv : validateH h a x = false
      · rw [if_pos hv] at hrun
        cases hrun
      rw [if_neg hv] at hrun
      cases hlk2 : mlookup h.mem x.next with
      | none =>
        simp only [hlk2] at hrun
        cases hrun
      | some y =>
        simp only [hlk2] at hrun
        by_cases hfree : IS_USED x.size = false ∧ IS_USED y.size = false
        · rw [if_pos hfree] at hrun
          obtain ⟨hd, hc, hs, he, hf, hp⟩ := coalesce_loop_frame fuel _ a h' hrun
          refine ⟨hd, hc, hs, he, hf, ?_⟩
          intro b z hb hu
          refine hp b z ?_ hu
          show mlookup (mstore h.mem a ⟨y.next, GET_SIZE x.size + HDR + GET_SIZE y.size⟩) b
            = some z
          rw [mlookup_mstore, if_neg ?_]
          · exact hb
          · intro hba
            rw [hba, hlk] at hb
            injection hb with hxz
            rw [← hxz, hfree.1] at hu
            exact Bool.noConfusion hu
        · rw [if_neg hfree] at hrun
          exact coalesce_loop_frame fuel h x.next h' hrun

/-- The first-fit walk returns null only by falling off the end of the
block list, leaving the heap untouched apart from the critical-section
exit. -/
theorem malloc_loop_null :
    ∀ (fuel : Nat) (h : Heap) (size a : Nat) (h' : Heap),
      malloc_loop fuel h size a = .ok 0 h' → h' = critLeave h
  | 0, h, size, a, h', hrun => by simp [malloc_loop] at hrun
  | fuel + 1, h, size, a, h', hrun => by
    rw [malloc_loop] at hrun
    by_cases ha : a = 0
    · rw [if_pos ha] at hrun
      cases hrun
      rfl
    rw [if_neg ha] at hrun
    cases hlk : mlookup h.mem a with
    | none =>
      simp only [hlk] at hrun
      cases hrun
    | some x =>
      simp only [hlk] at hrun
      by_cases hv : validateH h a x = true
      · rw [if_pos hv] at hrun
        by_cases hsel : IS_USED x.size = false ∧ size ≤ GET_SIZE x.size
        · rw [if_pos hsel] at hrun
          cases hsp : split_block h a size with
          | fault h1 =>
            rw [hsp] at hrun
            cases hrun
          | ok u h1 =>
            simp only [hsp] at hrun
            cases hlk1 : mlookup h1.mem a with
            | none =>
              simp only [hlk1] at hrun
              cases hrun
            | some x1 =>
              simp only [hlk1] at hrun
              by_cases hfc :
                  ({ h1 with mem := mstore h1.mem a ⟨x1.next, MARK_USED x1.size⟩ } :
                    Heap).freeCount = 0
              · rw [if_pos hfc] at hrun
                cases hrun
              · rw [if_neg hfc] at hrun
                injection hrun with hval hheap
                have hHDR : HDR = 8 := rfl
                omega
        · rw [if_neg hsel] at hrun
          exact malloc_loop_null fuel h size x.next h' hrun
      · rw [if_neg hv] at hrun
        cases hrun

/-- When malloc returns null, the payload bytes, the critical-section
depth, the region bounds and the list head are unchanged, and every used
header still reads the same. -/
theorem malloc_null {h0 : Heap} {size : Nat} {h1 : Heap}
    (hrun : malloc h0 size = .ok 0 h1) :
    h1.data = h0.data ∧ h1.crit = h0.crit ∧ h1.heapStart = h0.heapStart ∧
    h1.heapEnd = h0.heapEnd ∧ h1.firstFree = h0.firstFree ∧
    (∀ b x, mlookup h0.mem b = some x → IS_USED x.size = true →
      mlookup h1.mem b = some x) := by
  by_cases hc : size = 0 ∨ MALLOC_MAX_SIZE < size
  · have hrun2 : (Out.ok 0 h0 : Out Nat) = .ok 0 h1 := by
      rw [← hrun]
      simp only [malloc, if_pos hc]
    cases hrun2
    exact ⟨rfl, rfl, rfl, rfl, rfl, fun b x hb _ => hb⟩
  · simp only [malloc, if_neg hc] at hrun
    by_cases hco : COALESCE_THRESHOLD < (critEnter h0).freeCount
    · rw [if_pos hco] at hrun
      cases hres : coalesce_loop ((critEnter h0).heapEnd + 1) (critEnter h0)
          (critEnter h0).firstFree with
      | fault hf =>
        rw [hres] at hrun
        cases hrun
      | ok u hmid =>
        simp only [hres] at hrun
        obtain ⟨hd, hcr, hs, he, hf, hp⟩ := coalesce_loop_frame _ _ _ _ hres
        have hml := malloc_loop_null _ _ _ _ _ hrun
        subst hml
        have hcrE : (critEnter h0).crit = h0.crit + 1 := rfl
        have hcr' : hmid.crit = (critEnter h0).crit := hcr
        refine ⟨hd, by show hmid.crit - 1 = h0.crit; omega, hs, he, hf, ?_⟩
        intro b x hb hu
        exact hp b x hb hu
    · rw [if_neg hco] at hrun
      have hml := malloc_loop_null _ _ _ _ _ hrun
      subst hml
      exact ⟨rfl, by show h0.crit + 1 - 1 = h0.crit; omega, rfl, rfl, rfl,
        fun b x hb _ => hb⟩

/-- After the backward-merge stage the header at the freed address reads
free, whatever the predecessor search found. -/
theorem free_backward_lookup {h2 : Heap} {p : Nat} {x2 : Hdr} {h' : Heap}
    (hrun : free_backward h2 p x2 = .ok () h')
    (hlkp : mlookup h2.mem p = some x2) (hfree : IS_USED x2.size = false) :
    ∃ z, mlookup h'.mem p = some z ∧ IS_USED z.size = false := by
  unfold free_backward at hrun
  cases hfp : free_find_prev (h2.heapEnd + 1) h2.mem p h2.firstFree none with
  | none =>
    simp only [hfp] at hrun
    cases hrun
  | some r? =>
    simp only [hfp] at hrun
    cases r? with
    | none =>
      cases hrun
      exact ⟨x2, hlkp, hfree⟩
    | some r =>
      cases hlkr : mlookup h2.mem r with
      | none =>
        simp only [hlkr] at hrun
        cases hrun
        exact ⟨x2, hlkp, hfree⟩
      | some z =>
        simp only [hlkr] at hrun
        by_cases hz : IS_USED z.size = true
        · rw [if_pos hz] at hrun
          cases hrun
          exact ⟨x2, hlkp, hfree⟩
        · rw [if_neg hz] at hrun
          by_cases hvr : validate_block h2 r = true
          · rw [if_pos hvr] at hrun
            cases hrun
            by_cases hrp : p = r
            · refine ⟨⟨x2.next, GET_SIZE z.size + HDR + GET_SIZE x2.size⟩, ?_, ?_⟩
              · show mlookup (mstore h2.mem r _) p = some _
                rw [mlookup_mstore, if_pos hrp]
              · rw [IS_USED_eq_false]
                show (GET_SIZE z.size + HDR + GET_SIZE x2.size) % 2 = 0
                have hz1 := @GET_SIZE_mod_two (z.size)
                have hz2 := @GET_SIZE_mod_two (x2.size)
                have hHDR : HDR = 8 := rfl
                omega
            · refine ⟨x2, ?_, hfree⟩
              show mlookup (mstore h2.mem r _) p = some x2
              rw [mlookup_mstore, if_neg hrp]
              exact hlkp
          · rw [if_neg hvr] at hrun
            cases hrun

/-- The body of free() leaves the freed header marked free in every
returning branch. -/
theorem free_core_lookup {hE0 : Heap} {p : Nat} {x : Hdr} {h' : Heap}
    (hrun : free_core hE0 p x = .ok () h') :
    ∃ z, mlookup h'.mem p = some z ∧ IS_USED z.size = false := by
  simp only [free_core] at hrun
  by_cases hx0 : x.next = 0
  · rw [if_pos hx0] at hrun
    refine free_backward_lookup hrun ?_ IS_USED_MARK_FREE
    show mlookup (mstore hE0.mem p _) p = some _
    rw [mlookup_mstore, if_pos rfl]
  · rw [if_neg hx0] at hrun
    cases hlky : mlookup (mstore hE0.mem p ⟨x.next, MARK_FREE x.size⟩) x.next with
    | none =>
      simp only [hlky] at hrun
      refine free_backward_lookup hrun ?_ IS_USED_MARK_FREE
      show mlookup (mstore hE0.mem p _) p = some _
      rw [mlookup_mstore, if_pos rfl]
    | some y =>
      simp only [hlky] at hrun
      by_cases hy : IS_USED y.size = true
      · rw [if_pos hy] at hrun
        refine free_backward_lookup hrun ?_ IS_USED_MARK_FREE
        show mlookup (mstore hE0.mem p _) p = some _
        rw [mlookup_mstore, if_pos rfl]
      · rw [if_neg hy] at hrun
        refine free_backward_lookup hrun ?_ ?_
        · show mlookup (mstore (mstore hE0.mem p _) p _) p = some _
          rw [mlookup_mstore, if_pos rfl]
        · rw [IS_USED_eq_false]
          show (GET_SIZE (MARK_FREE x.size) + HDR + GET_SIZE y.size) % 2 = 0
          have hz1 := @GET_SIZE_mod_two (MARK_FREE x.size)
          have hz2 := @GET_SIZE_mod_two (y.size)
          have hHDR : HDR = 8 := rfl
          omega

/-- After a successful free(ptr) the header right before ptr has its used
flag clear. -/
theorem free_clears_used {h : Heap} {ptr : Nat} {h' : Heap}
    (hne : ptr ≠ 0) (hrun : free h ptr = .ok () h') :
    ∃ z, mlookup h'.mem (ptr - HDR) = some z ∧ IS_USED z.size = false := by
  simp only [free] at hrun
  rw [if_neg hne] at hrun
  cases hlk : mlookup (critEnter h).mem (ptr - HDR) with
  | none =>
    simp only [hlk] at hrun
    cases hrun
  | some x =>
    simp only [hlk] at hrun
    by_cases hg : (validate_block (critEnter h) (ptr - HDR) && IS_USED x.size) = true
    · rw [if_pos hg] at hrun
      exact free_core_lookup hrun
    · rw [if_neg hg] at hrun
      cases hrun

/-- Guard reduction of realloc: a live, used block too small for the
(aligned) request, whose physical successor cannot absorb the growth,
sends realloc to the relocate path. -/
theorem realloc_to_relocate {h0 : Heap} {b size0 : Nat} {x : Hdr}
    (hszmax : size0 ≤ MALLOC_MAX_SIZE) (hsz0 : size0 ≠ 0)
    (hlk : mlookup h0.mem b = some x)
    (hv : validate_block h0 b = true) (hused : IS_USED x.size = true)
    (hgrow : GET_SIZE x.size < ALIGN4 size0)
    (hnofast : ∀ y, (if x.next ≠ 0 then mlookup h0.mem x.next else none) = some y →
      ¬ (IS_USED y.size = false ∧
         ALIGN4 size0 ≤ GET_SIZE x.size + HDR + GET_SIZE y.size)) :
    realloc h0 (b + HDR) size0 =
      realloc_relocate h0 (b + HDR) (ALIGN4 size0) (GET_SIZE x.size) := by
  have hHDR : HDR = 8 := rfl
  simp only [realloc]
  rw [if_neg (not_lt.mpr hszmax), if_neg (show ¬ (b + HDR = 0) by omega),
    if_neg hsz0]
  simp only [Nat.add_sub_cancel, hlk, hv, hused, Bool.and_self, if_true]
  rw [if_neg (show ¬ (ALIGN4 size0 ≤ GET_SIZE x.size ∧
      GET_SIZE x.size - ALIGN4 size0 < HDR + MALLOC_MIN_SIZE) by
    intro hcontra
    exact absurd hcontra.1 (not_le.mpr hgrow))]
  rw [if_neg (not_le.mpr hgrow)]
  cases hopt : (if x.next ≠ 0 then mlookup h0.mem x.next else none) with
  | none => simp only [hopt]
  | some y =>
    simp only [hopt]
    rw [if_neg (hnofast y hopt)]

/-- C10: zero_allocate(0, size) returns null for every size and leaves the
heap state unchanged: a zero count passes the overflow guard, the total
allocation size becomes 0, and allocate rejects a zero size. -/
theorem c10_calloc_zero_count (h : Heap) (s : Nat) : calloc h 0 s = .ok 0 h := by
  simp only [calloc]
  rw [if_neg (by simp)]
  have htot : ALIGN4 (0 * s % U32) = 0 := by
    rw [Nat.zero_mul]
    rfl
  rw [htot]
  have hm : malloc h 0 = .ok 0 h := by
    simp [malloc]
  rw [hm]
  rfl

/-- C9: refuted in the source itself: realloc's split-shrink fast path
completes (returns the same pointer) but performs its heap mutation with
no matching critical-section entry, leaving the preemption depth at -1
where every balanced operation would leave it at 0. -/
theorem c9_realloc_critical_unbalanced :
    hD.crit = 0 ∧ outVal? (realloc hD 16 4) = some 16 ∧ hE.crit = -1 := by
  refine ⟨rfl, rfl, rfl⟩

/-- C6: refuted by realloc's grow-into-next fast path: on entry to
`realloc(p1, 40)` the heap `hA` is structurally well-formed and
free_blocks (1) equals the measured count; the operation completes
returning the same pointer, but the raw size store drops the used bit of
the returned block, so free_blocks is still 1 while two headers now
measure free. -/
theorem c6_realloc_grow_miscount :
    chainOKB hA.mem hA.heapStart hA.heapEnd hA.firstFree (theChain hA) = true ∧
    hA.freeCount = countFree (theChain hA) ∧ NoAdj (theChain hA) ∧
    outVal? (realloc hA 16 40) = some 16 ∧
    hG.freeCount = 1 ∧ countFree (theChain hG) = 2 ∧
    mlookup hG.mem 8 = some ⟨56, 40⟩ ∧ IS_USED (40 : Nat) = false := by
  decide

/-- C4: refuted on heap exhaustion: on the well-formed heap `hInit` the
request 84 is valid (0 < 84 ≤ max_payload) and no free block can hold it,
so the claim requires a null return; but the first-fit walk reaches the
sentinel, whose zero payload fails validate_block, and the code panics
instead of returning null. -/
theorem c4_malloc_exhaustion_panics :
    ((0 : Nat) < 84 ∧ (84 : Nat) ≤ MALLOC_MAX_SIZE) ∧
    chainOKB hInit.mem hInit.heapStart hInit.heapEnd hInit.firstFree (theChain hInit)
      = true ∧
    theChain hInit = [(8, ⟨96, 80⟩), (96, ⟨0, 1⟩)] ∧
    (∀ u ∈ theChain hInit, IS_USED u.2.size = false → GET_SIZE u.2.size < ALIGN4 84) ∧
    isFault (malloc hInit 84) = true := by
  decide

/-- C1 counterexample: on the well-formed heap `hD` (free count accurate,
no adjacent free pair, free count at or below the coalesce threshold),
`realloc(p1, 4)` takes the split-shrink fast path and completes, yet the
resulting block list holds the physically adjacent free headers at 20 and
40. -/
theorem c1_split_shrink_adjacent_free :
    chainOKB hD.mem hD.heapStart hD.heapEnd hD.firstFree (theChain hD) = true ∧
    hD.freeCount = countFree (theChain hD) ∧ NoAdj (theChain hD) ∧
    hD.freeCount ≤ COALESCE_THRESHOLD ∧
    outVal? (realloc hD 16 4) = some 16 ∧
    theChain hE = [(8, ⟨20, 5⟩), (20, ⟨40, 12⟩), (40, ⟨64, 16⟩), (64, ⟨96, 25⟩),
      (96, ⟨0, 1⟩)] ∧
    IS_USED (12 : Nat) = false ∧ IS_USED (16 : Nat) = false ∧
    20 + HDR + GET_SIZE (12 : Nat) = 40 ∧
    ¬ NoAdj (theChain hE) := by
  decide

/-- C2 counterexample: init of a 26-byte region rounds the length UP to
28, not down to 24: the installed free header carries payload 12 rather
than the round-down prediction 24 - 2*sizeof(H) = 8, no header sits at
the round-down sentinel position 24, and heap_end lands at 36, not 32. -/
theorem c2_round_down_refuted :
    2 * HDR + MALLOC_MIN_SIZE ≤ 26 ∧ (24 : Nat) = 26 - 26 % 4 ∧
    mlookup (mo_heap_init blankHeap 8 26).mem 8 = some ⟨28, 12⟩ ∧
    (12 : Nat) ≠ 24 - 2 * HDR ∧
    mlookup (mo_heap_init blankHeap 8 26).mem (8 + 24 - HDR) = none ∧
    (mo_heap_init blankHeap 8 26).heapEnd = 36 := by
  decide

/-- C8 counterexample: zero_allocate(0, 4) returns null although its
overflow guard count > 0 ∧ size > max_payload / count is false, refuting
the claimed "returns null exactly when". -/
theorem c8_guard_not_exact :
    outVal? (calloc hInit 0 4) = some 0 ∧
    ¬ ((0 : Nat) ≠ 0 ∧ MALLOC_MAX_SIZE / 0 < 4) := by
  decide

/-- C2 (amended): init silently rejects a null region or one too small
for two headers plus the minimum payload; otherwise it rounds the length
UP to a multiple of W (never exceeding it by more than W - 1) and writes
a free header at the region base with payload `rounded - 2*sizeof(H)`
linked to the used zero-payload sentinel at `region_base + rounded -
sizeof(H)`, with free_blocks set to 1. -/
theorem c2_init_rounds_up (h : Heap) (zone len0 : Nat) :
    (zone = 0 ∨ len0 < 2 * HDR + MALLOC_MIN_SIZE → mo_heap_init h zone len0 = h) ∧
    (zone ≠ 0 → 2 * HDR + MALLOC_MIN_SIZE ≤ len0 → len0 + 3 < U32 →
      len0 ≤ ALIGN4 len0 ∧ ALIGN4 len0 < len0 + 4 ∧ ALIGN4 len0 % 4 = 0 ∧
      mo_heap_init h zone len0 = { h with
        mem := mstore (mstore h.mem zone
            ⟨zone + ALIGN4 len0 - HDR, MARK_FREE (ALIGN4 len0 - 2 * HDR)⟩)
          (zone + ALIGN4 len0 - HDR) ⟨0, MARK_USED 0⟩,
        firstFree := zone, heapStart := zone,
        heapEnd := zone + ALIGN4 len0 - HDR + HDR, freeCount := 1 }) := by
  constructor
  · intro hrej
    simp only [mo_heap_init]
    rw [if_pos hrej]
  · intro hz hlen hw
    refine ⟨ALIGN4_ge hw, ALIGN4_lt hw, ALIGN4_mod_four, ?_⟩
    simp only [mo_heap_init]
    rw [if_neg (show ¬ (zone = 0 ∨ len0 < 2 * HDR + MALLOC_MIN_SIZE) by
      intro hc
      rcases hc with hc | hc
      · exact hz hc
      · omega)]

theorem c2_init_rounds_up_witness :
    mo_heap_init blankHeap 8 26 = { blankHeap with
      mem := mstore (mstore blankHeap.mem 8
          ⟨8 + ALIGN4 26 - HDR, MARK_FREE (ALIGN4 26 - 2 * HDR)⟩)
        (8 + ALIGN4 26 - HDR) ⟨0, MARK_USED 0⟩,
      firstFree := 8, heapStart := 8,
      heapEnd := 8 + ALIGN4 26 - HDR + HDR, freeCount := 1 } :=
  ((c2_init_rounds_up blankHeap 8 26).2 (by decide) (by decide) (by decide)).2.2.2

/-- C7: split(b, size) on a block whose payload holds the (even) request
leaves everything unchanged when the remainder is under sizeof(H) +
min_payload; otherwise it installs a free header of payload
`remaining - sizeof(H)` at `b + sizeof(H) + size` inheriting b's next
link, points b at it, sets b's payload to `size` preserving b's used
flag, and increments free_blocks. -/
theorem c7_split_block {h : Heap} {b size : Nat} {x : Hdr}
    (hlk : mlookup h.mem b = some x) (hle : size ≤ GET_SIZE x.size)
    (hsz2 : size % 2 = 0) :
    (GET_SIZE x.size - size < HDR + MALLOC_MIN_SIZE →
      split_block h b size = .ok () h) ∧
    (HDR + MALLOC_MIN_SIZE ≤ GET_SIZE x.size - size →
      ∃ h', split_block h b size = .ok () h' ∧
        mlookup h'.mem (b + HDR + size) =
          some ⟨x.next, MARK_FREE (GET_SIZE x.size - size - HDR)⟩ ∧
        IS_USED (MARK_FREE (GET_SIZE x.size - size - HDR)) = false ∧
        GET_SIZE (MARK_FREE (GET_SIZE x.size - size - HDR)) =
          GET_SIZE x.size - size - HDR ∧
        mlookup h'.mem b = some ⟨b + HDR + size, orUsedBit size (usedBit x.size)⟩ ∧
        GET_SIZE (orUsedBit size (usedBit x.size)) = size ∧
        IS_USED (orUsedBit size (usedBit x.size)) = IS_USED x.size ∧
        h'.freeCount = h.freeCount + 1 ∧
        h'.data = h.data ∧ h'.firstFree = h.firstFree) := by
  have hHDR : HDR = 8 := rfl
  constructor
  · intro hsmall
    rw [split_block_eq hlk hle, if_pos hsmall]
  · intro hbig
    rw [split_block_eq hlk hle, if_neg (not_lt.mpr hbig)]
    refine ⟨_, rfl, ?_, IS_USED_MARK_FREE, ?_, ?_, GET_SIZE_orUsedBit hsz2,
      IS_USED_orUsedBit hsz2, rfl, rfl, rfl⟩
    · show mlookup (mstore (mstore h.mem (b + HDR + size) _) b _) (b + HDR + size)
        = some _
      rw [mlookup_mstore, if_neg (by omega), mlookup_mstore, if_pos rfl]
    · rw [GET_SIZE_MARK_FREE]
      have hev := @GET_SIZE_mod_two (x.size)
      exact GET_SIZE_of_even (by omega)
    · show mlookup (mstore (mstore h.mem (b + HDR + size) _) b _) b = some _
      rw [mlookup_mstore, if_pos rfl]

theorem c7_split_block_witness :
    split_block hD 40 12 = .ok () hD ∧
    (∃ h', split_block hInit 8 24 = .ok () h' ∧
      mlookup h'.mem 40 = some ⟨96, 48⟩ ∧
      IS_USED (48 : Nat) = false ∧ GET_SIZE (48 : Nat) = 48 ∧
      mlookup h'.mem 8 = some ⟨40, 24⟩ ∧
      GET_SIZE (24 : Nat) = 24 ∧ IS_USED (24 : Nat) = IS_USED (80 : Nat) ∧
      h'.freeCount = hInit.freeCount + 1 ∧
      h'.data = hInit.data ∧ h'.firstFree = hInit.firstFree) :=
  ⟨(c7_split_block (show mlookup hD.mem 40 = some ⟨64, 16⟩ by decide)
      (by decide) (by decide)).1 (by decide),
   (c7_split_block (show mlookup hInit.mem 8 = some ⟨96, 80⟩ by decide)
      (by decide) (by decide)).2 (by decide)⟩

/-- C5: free(null) is a no-op; free of a non-null pointer whose header
fails validate_block (including an address never written) or whose used
flag is clear panics; and freeing the same pointer twice with no
intervening reallocation panics on the second call, because the first
free leaves the header's used flag clear in every returning branch. -/
theorem c5_free_validation :
    (∀ h : Heap, free h 0 = .ok () h) ∧
    (∀ (h : Heap) (ptr : Nat), ptr ≠ 0 →
      (validate_block (critEnter h) (ptr - HDR) = false ∨
        ∀ x, mlookup h.mem (ptr - HDR) = some x → IS_USED x.size = false) →
      isFault (free h ptr) = true) ∧
    (∀ (h h' : Heap) (ptr : Nat), ptr ≠ 0 → free h ptr = .ok () h' →
      isFault (free h' ptr) = true) := by
  refine ⟨?_, ?_, ?_⟩
  · intro h
    simp [free]
  · intro h ptr hne hbad
    simp only [free]
    rw [if_neg hne]
    cases hlk : mlookup (critEnter h).mem (ptr - HDR) with
    | none =>
      simp only [hlk]
      rfl
    | some x =>
      simp only [hlk]
      have hg : ¬ ((validate_block (critEnter h) (ptr - HDR) && IS_USED x.size) = true) := by
        rcases hbad with hv | hu
        · simp [hv]
        · have hux : IS_USED x.size = false := hu x hlk
          simp [hux]
      rw [if_neg hg]
      rfl
  · intro h h' ptr hne hrun
    obtain ⟨z, hlkz, hzfree⟩ := free_clears_used hne hrun
    simp only [free]
    rw [if_neg hne]
    have hlkz' : mlookup (critEnter h').mem (ptr - HDR) = some z := hlkz
    simp only [hlkz']
    rw [if_neg (show ¬ ((validate_block (critEnter h') (ptr - HDR) && IS_USED z.size)
        = true) by simp [hzfree])]
    rfl

theorem c5_free_validation_witness :
    isFault (free hD 48) = true :=
  c5_free_validation.2.2 hC hD 48 (by decide) rfl

/-- C1 (amended): on a heap satisfying the structural invariants with an
accurate free counter and no adjacent free pair, every completed
allocate, free and zero_allocate leaves a block list with no two
address-adjacent free headers (and an accurate counter); reallocate's
split-shrink fast path below the coalesce threshold does NOT preserve
this (see the counterexample). -/
theorem c1_adjacency_preserved {h : Heap} {l : List (Nat × Hdr)}
    (hwf : WFD h l) (hcnt : h.freeCount = countFree l) (hna : NoAdj l) :
    (∀ size v h', malloc h size = .ok v h' →
      ∃ l', ChainOK h'.mem h'.heapStart h'.heapEnd h'.firstFree l' ∧ NoAdj l' ∧
        h'.freeCount = countFree l') ∧
    (∀ l1 p x rest, l = l1 ++ (p, x) :: rest → rest ≠ [] → IS_USED x.size = true →
      ∃ h' l', free h (p + HDR) = .ok () h' ∧
        ChainOK h'.mem h'.heapStart h'.heapEnd h'.firstFree l' ∧ NoAdj l' ∧
        h'.freeCount = countFree l') ∧
    (∀ nmemb size v h', calloc h nmemb size = .ok v h' →
      ∃ l', ChainOK h'.mem h'.heapStart h'.heapEnd h'.firstFree l' ∧ NoAdj l' ∧
        h'.freeCount = countFree l') := by
  refine ⟨?_, ?_, ?_⟩
  · intro size v h' hrun
    obtain ⟨l', hwf', -, -, -, -, -, hcnt', hna', -, -⟩ := malloc_ok hwf hcnt hna hrun
    exact ⟨l', hwf'.chain, hna', hcnt'⟩
  · intro l1 p x rest hleq hrest hused
    subst hleq
    obtain ⟨h', l', hrun, hwf', -, -, -, -, -, hcnt', hna', -⟩ := free_ok hwf hrest hused
    exact ⟨h', l', hrun, hwf'.chain, hna' hna, hcnt' hcnt⟩
  · intro nmemb size v h' hrun
    by_cases hg : nmemb ≠ 0 ∧ MALLOC_MAX_SIZE / nmemb < size
    · have hrun2 : (Out.ok 0 h : Out Nat) = .ok v h' := by
        rw [← hrun]
        simp only [calloc, if_pos hg]
      cases hrun2
      exact ⟨l, hwf.chain, hna, hcnt⟩
    · simp only [calloc, if_neg hg] at hrun
      cases hm : malloc h (ALIGN4 (nmemb * size % U32)) with
      | fault hf =>
        rw [hm] at hrun
        cases hrun
      | ok p h1 =>
        simp only [hm] at hrun
        obtain ⟨l', hwf', -, -, -, -, -, hcnt', hna', -, -⟩ := malloc_ok hwf hcnt hna hm
        by_cases hp : p = 0
        · rw [if_pos hp] at hrun
          cases hrun
          exact ⟨l', hwf'.chain, hna', hcnt'⟩
        · rw [if_neg hp] at hrun
          cases hrun
          exact ⟨l', hwf'.chain, hna', hcnt'⟩

theorem c1_adjacency_preserved_witness :
    ∃ l', ChainOK hA.mem hA.heapStart hA.heapEnd hA.firstFree l' ∧ NoAdj l' ∧
      hA.freeCount = countFree l' :=
  (@c1_adjacency_preserved hInit (theChain hInit)
    ⟨chainOKB_sound (by decide), by decide, by decide⟩ (by decide) (by decide)).1
    24 16 hA rfl

/-- C8 (amended): for count > 0 the guard max_payload / count < size is
equivalent to count * size > max_payload, the guard makes zero_allocate
return null with no state change, and when it passes the product fits in
32 bits; on any non-null result the first count * size payload bytes are
zero.  (Null is also returned for count = 0, so "exactly when" was too
strong: see the counterexample.) -/
theorem c8_calloc_guard (h : Heap) (c s : Nat) :
    (0 < c → (MALLOC_MAX_SIZE / c < s ↔ MALLOC_MAX_SIZE < c * s)) ∧
    (0 < c → MALLOC_MAX_SIZE / c < s → calloc h c s = .ok 0 h) ∧
    (0 < c → ¬ MALLOC_MAX_SIZE / c < s → c * s ≤ MALLOC_MAX_SIZE ∧ c * s < U32) ∧
    (∀ v h', calloc h c s = .ok v h' → v ≠ 0 →
      ∀ i, i < c * s → h'.data (v + i) = 0) := by
  have hiff : 0 < c → (MALLOC_MAX_SIZE / c < s ↔ MALLOC_MAX_SIZE < c * s) := by
    intro hc
    rw [Nat.div_lt_iff_lt_mul hc, Nat.mul_comm]
  have hfits : 0 < c → ¬ MALLOC_MAX_SIZE / c < s → c * s ≤ MALLOC_MAX_SIZE ∧ c * s < U32 := by
    intro hc hno
    have hle : c * s ≤ MALLOC_MAX_SIZE := by
      rcases Nat.lt_or_ge MALLOC_MAX_SIZE (c * s) with hlt | hge
      · exact absurd ((hiff hc).mpr hlt) hno
      · exact hge
    refine ⟨hle, ?_⟩
    have hM := MAX_eq
    have hU := U32_eq
    omega
  refine ⟨hiff, ?_, hfits, ?_⟩
  · intro hc hguard
    simp only [calloc]
    rw [if_pos ⟨by omega, hguard⟩]
  · intro v h' hrun hv i hi
    by_cases hg : c ≠ 0 ∧ MALLOC_MAX_SIZE / c < s
    · have hrun2 : (Out.ok 0 h : Out Nat) = .ok v h' := by
        rw [← hrun]
        simp only [calloc, if_pos hg]
      cases hrun2
      exact absurd rfl hv
    · simp only [calloc, if_neg hg] at hrun
      have hcs : c * s ≤ MALLOC_MAX_SIZE := by
        by_cases hc : c = 0
        · subst hc
          simp
        · exact (hfits (by omega) (fun hlt => hg ⟨hc, hlt⟩)).1
      have hcsU : c * s < U32 := by
        have hM := MAX_eq
        have hU := U32_eq
        omega
      have hmod : c * s % U32 = c * s := Nat.mod_eq_of_lt hcsU
      have htot : c * s ≤ ALIGN4 (c * s % U32) := by
        rw [hmod]
        refine ALIGN4_ge ?_
        have hM := MAX_eq
        have hU := U32_eq
        omega
      cases hm : malloc h (ALIGN4 (c * s % U32)) with
      | fault hf =>
        rw [hm] at hrun
        cases hrun
      | ok p h1 =>
        simp only [hm] at hrun
        by_cases hp : p = 0
        · rw [if_pos hp] at hrun
          cases hrun
          exact absurd rfl hv
        · rw [if_neg hp] at hrun
          cases hrun
          show memsetData h1.data v 0 (ALIGN4 (c * s % U32)) (v + i) = 0
          rw [memsetData_in (by omega) (by omega)]

theorem c8_calloc_guard_witness :
    (outHeap (calloc hInit 2 6)).data (16 + 5) = 0 :=
  (c8_calloc_guard hInit 2 6).2.2.2 16 (outHeap (calloc hInit 2 6)) rfl
    (by decide) 5 (by decide)

/-- C3: when realloc on a live (used, validated) block must relocate (the
aligned request exceeds the current payload and the physical successor
cannot absorb the growth), a null fresh allocation makes realloc return
null with the original header still present, still used, and the payload
bytes untouched; a non-null fresh allocation yields the new pointer with
the first min(old, size) payload bytes copied from the original, and the
original header freed. -/
theorem c3_realloc_relocate {h0 : Heap} {b size0 : Nat} {x : Hdr}
    (hszmax : size0 ≤ MALLOC_MAX_SIZE) (hsz0 : size0 ≠ 0)
    (hlk : mlookup h0.mem b = some x) (hv : validate_block h0 b = true)
    (hused : IS_USED x.size = true) (hgrow : GET_SIZE x.size < ALIGN4 size0)
    (hnofast : ∀ y, (if x.next ≠ 0 then mlookup h0.mem x.next else none) = some y →
      ¬ (IS_USED y.size = false ∧
         ALIGN4 size0 ≤ GET_SIZE x.size + HDR + GET_SIZE y.size)) :
    (∀ h1, malloc h0 (ALIGN4 size0) = .ok 0 h1 →
      realloc h0 (b + HDR) size0 = .ok 0 h1 ∧
      mlookup h1.mem b = some x ∧ IS_USED x.size = true ∧ h1.data = h0.data) ∧
    (∀ l nb h1, WFD h0 l → h0.freeCount = countFree l → NoAdj l → (b, x) ∈ l →
      malloc h0 (ALIGN4 size0) = .ok nb h1 → nb ≠ 0 →
      ∃ h3, realloc h0 (b + HDR) size0 = .ok nb h3 ∧
        (∀ i, i < min (GET_SIZE x.size) (ALIGN4 size0) →
          h3.data (nb + i) = h0.data (b + HDR + i)) ∧
        (∃ z, mlookup h3.mem b = some z ∧ IS_USED z.size = false)) := by
  have hred := realloc_to_relocate hszmax hsz0 hlk hv hused hgrow hnofast
  constructor
  · intro h1 hm
    obtain ⟨hd, hcr, hhs, hhe, hff, hp⟩ := malloc_null hm
    refine ⟨?_, hp b x hlk hused, hused, hd⟩
    rw [hred]
    simp only [realloc_relocate, hm]
    rfl
  · intro l nb h1 hwf hcnt hna hmem hm hnb
    obtain ⟨l', hwf', hhs', hhe', hff', hdata', hcrit', hcnt', hna', hpres', -⟩ :=
      malloc_ok hwf hcnt hna hm
    have hmem' : (b, x) ∈ l' := hpres' (b, x) hmem hused
    obtain ⟨l1, l2, hl'eq, hsuffix, hlast⟩ := hwf'.chain.mem_split hmem'
    have hvH : validateH h0 b x = true := by
      unfold validate_block at hv
      rw [hlk] at hv
      exact hv
    have hszpos : 0 < GET_SIZE x.size := validateH_pos hvH
    have hl2ne : l2 ≠ [] := by
      intro hnil
      obtain ⟨-, hxval⟩ := hlast hnil
      rw [hxval] at hszpos
      simp [GET_SIZE] at hszpos
    have hwf2 : WFD { h1 with data := (memcpyData h1.data nb (b + HDR)
        (min (GET_SIZE x.size) (ALIGN4 size0))) } (l1 ++ (b, x) :: l2) := by
      rw [hl'eq] at hwf'
      exact ⟨hwf'.chain, hwf'.hsPos, hwf'.bound⟩
    obtain ⟨h3, l3, hfr, hwf3, -, -, -, hdata3, -, -, -, hfreed⟩ :=
      free_ok hwf2 hl2ne hused
    refine ⟨h3, ?_, ?_, hfreed⟩
    · rw [hred]
      simp only [realloc_relocate, hm]
      rw [if_neg hnb]
      simp only [hfr]
    · intro i hi
      have h3d : h3.data (nb + i) = memcpyData h1.data nb (b + HDR)
          (min (GET_SIZE x.size) (ALIGN4 size0)) (nb + i) := by
        rw [hdata3]
      rw [h3d, memcpyData_in (by omega) (by omega), hdata']
      congr 1
      omega

theorem c3_realloc_relocate_witness :
    (realloc hNoSent 16 40 = .ok 0 (outHeap (malloc hNoSent (ALIGN4 40))) ∧
      mlookup (outHeap (malloc hNoSent (ALIGN4 40))).mem 8 = some ⟨0, 25⟩ ∧
      IS_USED (25 : Nat) = true ∧
      (outHeap (malloc hNoSent (ALIGN4 40))).data = hNoSent.data) ∧
    (∃ h3, realloc hRel 16 12 = .ok 48 h3 ∧
      (∀ i, i < min (GET_SIZE (9 : Nat)) (ALIGN4 12) →
        h3.data (48 + i) = hRel.data (16 + i)) ∧
      (∃ z, mlookup h3.mem 8 = some z ∧ IS_USED z.size = false)) :=
  ⟨(@c3_realloc_relocate hNoSent 8 40 ⟨0, 25⟩ (by decide) (by decide) (by decide)
      (by decide) (by decide) (by decide) (fun y hy => by cases hy)).1
      (outHeap (malloc hNoSent (ALIGN4 40))) rfl,
   (@c3_realloc_relocate hRel 8 12 ⟨24, 9⟩ (by decide) (by decide) (by decide)
      (by decide) (by decide) (by decide)
      (fun y hy => by
        have hy2 : some (⟨40, 9⟩ : Hdr) = some y := hy
        cases hy2
        decide)).2
      (theChain hRel) 48 (outHeap (malloc hRel (ALIGN4 12)))
      ⟨chainOKB_sound (by decide), by decide, by decide⟩
      (by decide) (by decide) (by decide) rfl (by decide)⟩

end Linmo
